import Mathlib

/-!
Verification of the partr parallel task runtime core (src/partr.c).

The development shallowly embeds the data structures and operations of the
multiqueue (d-ary task heaps with published minimum-priority summaries), the
synchronization-tree pools, the arrival/reduction trees, and the task fan-out
creation of `jl_task_new_multi`, and proves or refutes the specified
properties about them.  Machine `int16_t` priorities are modelled as `Int`
together with the explicit bound `prioEmpty = 32767 = INT16_MAX` where it
matters; the per-heap lock discipline is modelled by sequential execution of
each locked critical section.
-/

namespace Partr

/-! ### Implicit d-ary tree indexing

Both the task heaps (`heap_d = 8`) and the synchronization trees (binary,
children `2k+1, 2k+2`) are implicit trees over array indices with parent
`(j-1)/D`.  `descB D i j` decides whether `j` lies in the subtree rooted
at `i`. -/

def descB (D i j : Nat) : Bool :=
  if j = i then true
  else if j = 0 then false
  else descB D i ((j - 1) / D)
termination_by j
decreasing_by
  have h1 : (j - 1) / D ≤ j - 1 := Nat.div_le_self _ _
  omega

theorem descB_refl (D i : Nat) : descB D i i = true := by
  rw [descB]; simp

theorem descB_zero (D j : Nat) : descB D 0 j = true := by
  induction j using Nat.strong_induction_on with
  | _ j ih =>
    rw [descB]
    by_cases h0 : j = 0
    · simp [h0]
    · have h1 : (j - 1) / D ≤ j - 1 := Nat.div_le_self _ _
      have := ih ((j - 1) / D) (by omega)
      simp [h0, this]

theorem descB_of_parent {D i j : Nat} (hj : 0 < j)
    (h : descB D i ((j - 1) / D) = true) : descB D i j = true := by
  rw [descB]
  by_cases he : j = i
  · simp [he]
  · simp [he, Nat.pos_iff_ne_zero.mp hj, h]

theorem descB_le {D i j : Nat} (h : descB D i j = true) : i ≤ j := by
  induction j using Nat.strong_induction_on with
  | _ j ih =>
    rw [descB] at h
    by_cases he : j = i
    · omega
    · by_cases h0 : j = 0
      · simp [he, h0] at h
        omega
      · simp [he, h0] at h
        have h1 : (j - 1) / D ≤ j - 1 := Nat.div_le_self _ _
        have := ih ((j - 1) / D) (by omega) h
        omega

theorem descB_trans {D i j k : Nat} (hij : descB D i j = true)
    (hjk : descB D j k = true) : descB D i k = true := by
  induction k using Nat.strong_induction_on with
  | _ k ih =>
    rw [descB] at hjk
    by_cases he : k = j
    · exact he ▸ hij
    · by_cases h0 : k = 0
      · simp [he, h0] at hjk
        subst h0
        rw [hjk]
        exact hij
      · simp [he, h0] at hjk
        have h1 : (k - 1) / D ≤ k - 1 := Nat.div_le_self _ _
        exact descB_of_parent (by omega) (ih ((k - 1) / D) (by omega) hjk)

theorem descB_child {D c : Nat} (hc : 0 < c) : descB D ((c - 1) / D) c = true :=
  descB_of_parent hc (descB_refl D _)

/-- A strict descendant of `b` lies in the subtree of some child of `b`. -/
theorem descB_step {D b j : Nat} (h : descB D b j = true) (hne : j ≠ b) :
    ∃ c, 0 < c ∧ (c - 1) / D = b ∧ descB D c j = true := by
  induction j using Nat.strong_induction_on with
  | _ j ih =>
    rw [descB] at h
    by_cases h0 : j = 0
    · simp [hne, h0] at h
      exact absurd (h0.trans h) hne
    · simp [hne, h0] at h
      by_cases hp : (j - 1) / D = b
      · exact ⟨j, by omega, hp, descB_refl D j⟩
      · have h1 : (j - 1) / D ≤ j - 1 := Nat.div_le_self _ _
        obtain ⟨c, hc0, hcp, hcd⟩ := ih ((j - 1) / D) (by omega) h hp
        exact ⟨c, hc0, hcp, descB_of_parent (by omega) hcd⟩

theorem descB_comparable {D c c' j : Nat} (h : descB D c j = true)
    (h' : descB D c' j = true) : descB D c c' = true ∨ descB D c' c = true := by
  induction j using Nat.strong_induction_on with
  | _ j ih =>
    by_cases he : j = c
    · exact Or.inr (he ▸ h')
    · by_cases he' : j = c'
      · exact Or.inl (he' ▸ h)
      · rw [descB] at h h'
        by_cases h0 : j = 0
        · simp [he, h0] at h
          exact Or.inl (h ▸ descB_zero D c')
        · simp [he, h0] at h
          simp [he', h0] at h'
          have h1 : (j - 1) / D ≤ j - 1 := Nat.div_le_self _ _
          exact ih ((j - 1) / D) (by omega) h h'

/-- Children index interval: for `D ≥ 1` and `c ≥ 1`,
`(c-1)/D = b` iff `c ∈ [D*b+1, D*b+D]`. -/
theorem child_iff {D b c : Nat} (hD : 0 < D) (hc : 0 < c) :
    (c - 1) / D = b ↔ D * b + 1 ≤ c ∧ c ≤ D * b + D := by
  have e2 : D * b = b * D := by ring
  constructor
  · intro h
    have hm : (c - 1) / D * D ≤ c - 1 := Nat.div_mul_le_self _ _
    rw [h] at hm
    have hq : (c - 1) / D < b + 1 := by omega
    have h2 : c - 1 < (b + 1) * D := (Nat.div_lt_iff_lt_mul hD).mp hq
    have e1 : (b + 1) * D = b * D + D := by ring
    omega
  · intro ⟨h1, h2⟩
    have key : c - 1 = (c - 1 - D * b) + D * b := by omega
    rw [key, Nat.add_mul_div_left _ _ hD, Nat.div_eq_of_lt (by omega)]
    omega

/-- Subtrees of distinct children of the same node are disjoint. -/
theorem descB_child_disjoint {D b c c' j : Nat} (hD : 0 < D)
    (hc : 0 < c) (hc' : 0 < c') (hpc : (c - 1) / D = b) (hpc' : (c' - 1) / D = b)
    (hne : c ≠ c') (h : descB D c j = true) (h' : descB D c' j = true) : False := by
  have hcb : b < c := by
    have := (child_iff hD hc).mp hpc
    calc b ≤ D * b := Nat.le_mul_of_pos_left b hD
      _ < c := by omega
  have hcb' : b < c' := by
    have := (child_iff hD hc').mp hpc'
    calc b ≤ D * b := Nat.le_mul_of_pos_left b hD
      _ < c' := by omega
  obtain hcc | hcc := descB_comparable h h'
  · rw [descB, if_neg (Ne.symm hne), if_neg (by omega : ¬ c' = 0), hpc'] at hcc
    have := descB_le hcc
    omega
  · rw [descB, if_neg hne, if_neg (by omega : ¬ c = 0), hpc] at hcc
    have := descB_le hcc
    omega

theorem parent_lt_child {D b c : Nat} (hD : 0 < D) (hc : 0 < c)
    (hpc : (c - 1) / D = b) : b < c := by
  have := (child_iff hD hc).mp hpc
  calc b ≤ D * b := Nat.le_mul_of_pos_left b hD
    _ < c := by omega

/-- Only the root of a one-node subtree range: if `c`'s children indices
exceed every index in the tree, the only index of the subtree that is in
range is `c` itself. -/
theorem descB_leaf_eq {D c j bound : Nat} (hD : 0 < D)
    (hleaf : bound ≤ D * c + 1) (hj : j < bound)
    (h : descB D c j = true) : j = c := by
  by_cases he : j = c
  · exact he
  · obtain ⟨c', hc0, hcp, hcd⟩ := descB_step h he
    have h1 := (child_iff hD hc0).mp hcp
    have := descB_le hcd
    omega

/-! ### Multiqueue data model

A `Task` models the fields of `jl_task_t` relevant to multiqueue claims:
an opaque identity and the `int16_t` priority field `prio` (modelled as
`Int`).  A heap's slot array `jl_task_t **tasks` (of `tasks_per_heap`
pointers, null beyond `ntasks`) is modelled as `Nat → Option Task`. -/

structure Task where
  id : Nat
  prio : Int
deriving DecidableEq

abbrev Slots := Nat → Option Task

/-- `heap_d = 8` (multiqueue parameter). -/
def heapD : Nat := 8

/-- `tasks_per_heap = 129` (size of each heap). -/
def tasksPerHeap : Nat := 129

/-- `INT16_MAX`: the published summary of an empty heap. -/
def prioEmpty : Int := 32767

/-- Pointwise update of a slot array. -/
def upd (f : Slots) (i : Nat) (v : Option Task) : Slots :=
  fun j => if j = i then v else f j

/-- Priority stored at index `i` (`prioEmpty` for a null slot; the code
never reads the priority of a null slot). -/
def prioAt (f : Slots) (i : Nat) : Int :=
  match f i with
  | some t => t.prio
  | none => prioEmpty

/-- Swap the slots at `i` and `j` (the three-assignment swap in the code). -/
def swapS (f : Slots) (i j : Nat) : Slots :=
  upd (upd f i (f j)) j (f i)

/-- `sift_up()` of src/partr.c: while `idx > 0` and
`tasks[idx]->prio <= tasks[(idx-1)/heap_d]->prio`, swap with the parent
and recurse at the parent. -/
def sift_up (f : Slots) (idx : Nat) : Slots :=
  if h : 0 < idx then
    match f idx, f ((idx - 1) / heapD) with
    | some ti, some tp =>
      if ti.prio ≤ tp.prio then
        sift_up (swapS f idx ((idx - 1) / heapD)) ((idx - 1) / heapD)
      else f
    | _, _ => f
  else f
termination_by idx
decreasing_by
  have h1 : (idx - 1) / heapD ≤ idx - 1 := Nat.div_le_self _ _
  omega

/-- The `for` loop of `sift_down()` together with its embedded recursive
call: scan children `child ∈ [heap_d*idx+1, heap_d*idx+heap_d]` with
`child < tasks_per_heap`; on a non-null child whose priority is `≤` the
current node's, swap and recurse into the child (when in range of
`ntasks`), then continue the scan with the next child.  The proof
argument `hic : idx < child` holds for every call the code performs and
justifies termination. -/
def sdLoop (n : Nat) (f : Slots) (idx child : Nat) (hic : idx < child) : Slots :=
  if hguard : child < tasksPerHeap ∧ child ≤ heapD * idx + heapD then
    sdLoop n
      (match f child, f idx with
       | some tc, some ti =>
         if tc.prio ≤ ti.prio then
           if child < n then
             sdLoop n (swapS f idx child) child (heapD * child + 1)
               (by unfold heapD; omega)
           else swapS f idx child
         else f
       | _, _ => f)
      idx (child + 1) (by omega)
  else f
termination_by (tasksPerHeap - idx, heapD * idx + heapD + 1 - child)
decreasing_by
  · exact Prod.Lex.left _ _ (by omega)
  · exact Prod.Lex.right _ (by omega)

/-- `sift_down()` of src/partr.c. -/
def sift_down (n : Nat) (f : Slots) (idx : Nat) : Slots :=
  if idx < n then sdLoop n f idx (heapD * idx + 1) (by unfold heapD; omega) else f

/-- A task heap: slot array, count and published minimum-priority summary. -/
structure Heap where
  tasks : Slots
  ntasks : Nat
  prio : Int

/-- `multiq_insert()` acting on the randomly chosen heap (the RNG draw and
the per-heap lock are external to the claim; the locked critical section
runs sequentially).  Returns the updated heap, the task as left in memory,
and the return code (`0` ok, `-1` full).  Note `task->prio = priority` is
executed before the capacity check, and the summary CAS is modelled by its
sequential effect. -/
def multiq_insert (h : Heap) (task : Task) (priority : Int) :
    Heap × Task × Int :=
  if tasksPerHeap ≤ h.ntasks then (h, { task with prio := priority }, -1)
  else
    ({ tasks := sift_up (upd h.tasks h.ntasks
          (some { task with prio := priority })) h.ntasks,
       ntasks := h.ntasks + 1,
       prio := if priority < h.prio then priority else h.prio },
     { task with prio := priority }, 0)

/-- The extraction step of `multiq_deletemin()` on the committed heap:
take `tasks[0]`, move `tasks[--ntasks]` to the root, null the vacated
slot, sift down, republish the summary. -/
def mq_extract (h : Heap) : Option Task × Heap :=
  if 0 < h.ntasks - 1 then
    (h.tasks 0,
     { tasks := sift_down (h.ntasks - 1)
         (upd (upd h.tasks 0 (h.tasks (h.ntasks - 1))) (h.ntasks - 1) none) 0,
       ntasks := h.ntasks - 1,
       prio := prioAt (sift_down (h.ntasks - 1)
         (upd (upd h.tasks 0 (h.tasks (h.ntasks - 1))) (h.ntasks - 1) none) 0) 0 })
  else
    (h.tasks 0,
     { tasks := upd (upd h.tasks 0 (h.tasks (h.ntasks - 1))) (h.ntasks - 1) none,
       ntasks := h.ntasks - 1,
       prio := prioEmpty })

/-- The probe loop of `multiq_deletemin()`: up to `jl_n_threads` rounds,
read the published summaries of two random heaps, keep the smaller; skip
the round if both are `INT16_MAX`; otherwise commit (sequentially, the
trylock succeeds and the re-validation `prio1 == heaps[rn1].prio` holds).
The list of random pairs drawn is a parameter. -/
def mqProbe (mq : Nat → Heap) : List (Nat × Nat) → Option Nat
  | [] => none
  | (rn1, rn2) :: rest =>
    let prio1 := (mq rn1).prio
    let prio2 := (mq rn2).prio
    if prio2 < prio1 then some rn2
    else if prio1 = prio2 ∧ prio1 = prioEmpty then mqProbe mq rest
    else some rn1

/-- `multiq_deletemin()`: probe, then extract from the committed heap. -/
def multiq_deletemin (mq : Nat → Heap) (probes : List (Nat × Nat)) :
    Option Task × (Nat → Heap) :=
  match mqProbe mq probes with
  | none => (none, mq)
  | some rn =>
    ((mq_extract (mq rn)).1,
     fun i => if i = rn then (mq_extract (mq rn)).2 else mq i)

/-- `multiq_insert()` at the multiqueue level: `rn` is the heap index the
unbiased RNG chose (the task is stored in exactly that heap). -/
def multiq_insert_mq (mq : Nat → Heap) (rn : Nat) (task : Task)
    (priority : Int) : (Nat → Heap) × Task × Int :=
  (fun i => if i = rn then (multiq_insert (mq rn) task priority).1 else mq i,
   (multiq_insert (mq rn) task priority).2.1,
   (multiq_insert (mq rn) task priority).2.2)

/-! ### Heap invariants (spec §3) -/

/-- Slot-array well-formedness: `ntasks ∈ [0, tasks_per_heap]`, slots
`[0, ntasks)` non-null and all others null. -/
def wfSlots (f : Slots) (n : Nat) : Prop :=
  n ≤ tasksPerHeap ∧ ∀ i, (f i).isSome ↔ i < n

/-- Heap order: for every `i > 0` in range, `tasks[(i-1)/d].prio ≤ tasks[i].prio`. -/
def heapOrder (f : Slots) (n : Nat) : Prop :=
  ∀ i, 0 < i → i < n → prioAt f ((i - 1) / heapD) ≤ prioAt f i

/-- Published-summary invariant: `prio = tasks[0].prio` when nonempty,
`prio = PRIO_EMPTY` when empty. -/
def summaryInv (h : Heap) : Prop :=
  (0 < h.ntasks → h.prio = prioAt h.tasks 0) ∧ (h.ntasks = 0 → h.prio = prioEmpty)

/-- All stored priorities are `int16_t` values, so at most `INT16_MAX`. -/
def prioBdd (f : Slots) : Prop :=
  ∀ i, prioAt f i ≤ prioEmpty

/-- The invariant bundle a heap maintains between operations. -/
def heapWF (h : Heap) : Prop :=
  wfSlots h.tasks h.ntasks ∧ heapOrder h.tasks h.ntasks ∧ summaryInv h ∧
    prioBdd h.tasks

/-! ### Basic slot lemmas -/

theorem upd_self (f : Slots) (i : Nat) (v : Option Task) : upd f i v i = v := by
  simp [upd]

theorem upd_other (f : Slots) (i : Nat) (v : Option Task) {k : Nat} (h : k ≠ i) :
    upd f i v k = f k := by
  simp [upd, h]

theorem prioAt_swap_fst (f : Slots) (i j : Nat) :
    prioAt (swapS f i j) j = prioAt f i := by
  simp [prioAt, swapS, upd]

theorem prioAt_swap_snd (f : Slots) {i j : Nat} (hne : i ≠ j) :
    prioAt (swapS f i j) i = prioAt f j := by
  simp [prioAt, swapS, upd, hne]

theorem prioAt_swap_other (f : Slots) {i j k : Nat} (hki : k ≠ i) (hkj : k ≠ j) :
    prioAt (swapS f i j) k = prioAt f k := by
  simp [prioAt, swapS, upd, hki, hkj]

theorem wf_swap {f : Slots} {n i j : Nat} (hw : wfSlots f n)
    (hi : i < n) (hj : j < n) : wfSlots (swapS f i j) n := by
  refine ⟨hw.1, fun k => ?_⟩
  by_cases hkj : k = j
  · subst hkj
    rw [show swapS f i k k = f i from by simp [swapS, upd]]
    rw [hw.2 i]
    omega
  · by_cases hki : k = i
    · subst hki
      rw [show swapS f k j k = f j from by simp [swapS, upd, hkj]]
      rw [hw.2 j]
      omega
    · rw [show swapS f i j k = f k from by simp [swapS, upd, hki, hkj]]
      exact hw.2 k

theorem isSome_exists {f : Slots} {n i : Nat} (hw : wfSlots f n) (hi : i < n) :
    ∃ t, f i = some t := by
  have := (hw.2 i).mpr hi
  exact Option.isSome_iff_exists.mp this

theorem parent_div_lt {j : Nat} (h : 0 < j) : (j - 1) / heapD < j := by
  have h1 : (j - 1) / heapD ≤ j - 1 := Nat.div_le_self _ _
  omega

/-- In a heap ordered everywhere except possibly at `idx`, the root is a
lower bound of every entry strictly below `idx`. -/
theorem root_min_except {f : Slots} {n idx : Nat}
    (hA : ∀ j, 0 < j → j < n → j ≠ idx → prioAt f ((j - 1) / heapD) ≤ prioAt f j) :
    ∀ j, j < idx → j < n → prioAt f 0 ≤ prioAt f j := by
  intro j
  induction j using Nat.strong_induction_on with
  | _ j ih =>
    intro hji hjn
    by_cases h0 : j = 0
    · subst h0; exact le_refl _
    · have hp : (j - 1) / heapD < j := parent_div_lt (by omega)
      calc prioAt f 0 ≤ prioAt f ((j - 1) / heapD) :=
            ih _ hp (by omega) (by omega)
        _ ≤ prioAt f j := hA j (by omega) hjn (by omega)

/-- Correctness of `sift_up`: from a heap ordered everywhere except at the
edges incident to `idx` (hypotheses `hA`, `hB`), sifting up restores full
heap order, preserves well-formedness, and leaves at the root the minimum
of the old root and the sifted entry. -/
theorem sift_up_spec : ∀ idx f n, wfSlots f n → idx < n →
    (∀ j, 0 < j → j < n → j ≠ idx → prioAt f ((j - 1) / heapD) ≤ prioAt f j) →
    (0 < idx → ∀ j, (j - 1) / heapD = idx → j < n →
      prioAt f ((idx - 1) / heapD) ≤ prioAt f j) →
    wfSlots (sift_up f idx) n ∧
    (∀ j, 0 < j → j < n →
      prioAt (sift_up f idx) ((j - 1) / heapD) ≤ prioAt (sift_up f idx) j) ∧
    prioAt (sift_up f idx) 0 = min (prioAt f 0) (prioAt f idx) := by
  intro idx
  induction idx using Nat.strong_induction_on with
  | _ idx ih =>
    intro f n hw hidx hA hB
    by_cases hpos : 0 < idx
    · have hparlt : (idx - 1) / heapD < idx := parent_div_lt hpos
      set par := (idx - 1) / heapD with hpar
      obtain ⟨ti, hti⟩ := isSome_exists hw hidx
      obtain ⟨tp, htp⟩ := isSome_exists hw (show par < n by omega)
      have hne : idx ≠ par := by omega
      rw [sift_up, dif_pos hpos]
      rw [← hpar, hti, htp]
      by_cases hle : ti.prio ≤ tp.prio
      · simp only [hle, if_true]
        set fs := swapS f idx par with hfs
        have hfs_par : prioAt fs par = ti.prio := by
          rw [hfs, prioAt_swap_fst, prioAt, hti]
        have hfs_idx : prioAt fs idx = tp.prio := by
          rw [hfs, prioAt_swap_snd f hne, prioAt, htp]
        have hfs_other : ∀ k, k ≠ idx → k ≠ par → prioAt fs k = prioAt f k :=
          fun k h1 h2 => prioAt_swap_other f h1 h2
        have hwfs : wfSlots fs n := wf_swap hw hidx (by omega)
        have hfi : prioAt f idx = ti.prio := by rw [prioAt, hti]
        have hfp : prioAt f par = tp.prio := by rw [prioAt, htp]
        -- hypotheses of the recursive call at `par`
        have hA' : ∀ j, 0 < j → j < n → j ≠ par →
            prioAt fs ((j - 1) / heapD) ≤ prioAt fs j := by
          intro j hj0 hjn hjpar
          by_cases hji : j = idx
          · subst hji
            rw [← hpar, hfs_par, hfs_idx]
            exact hle
          · have hfsj : prioAt fs j = prioAt f j := hfs_other j hji hjpar
            by_cases hpj : (j - 1) / heapD = idx
            · rw [hpj, hfs_idx]
              rw [hfsj]
              have := hB hpos j hpj hjn
              rw [hfp] at this
              exact this
            · by_cases hpj2 : (j - 1) / heapD = par
              · rw [hpj2, hfs_par, hfsj]
                calc ti.prio ≤ tp.prio := hle
                  _ = prioAt f par := hfp.symm
                  _ = prioAt f ((j - 1) / heapD) := by rw [hpj2]
                  _ ≤ prioAt f j := hA j hj0 hjn hji
              · rw [hfs_other _ hpj hpj2, hfsj]
                exact hA j hj0 hjn hji
        have hB' : 0 < par → ∀ j, (j - 1) / heapD = par → j < n →
            prioAt fs ((par - 1) / heapD) ≤ prioAt fs j := by
          intro hppos j hpj hjn
          have hgplt : (par - 1) / heapD < par := parent_div_lt hppos
          have hgp_other : prioAt fs ((par - 1) / heapD) =
              prioAt f ((par - 1) / heapD) :=
            hfs_other _ (by omega) (by omega)
          have hApar : prioAt f ((par - 1) / heapD) ≤ prioAt f par :=
            hA par hppos (by omega) (by omega)
          by_cases hji : j = idx
          · subst hji
            rw [hgp_other, hfs_idx, ← hfp]
            exact hApar
          · have hj0 : 0 < j := by
              rcases Nat.eq_zero_or_pos j with h0 | h0
              · subst h0; simp at hpj; omega
              · exact h0
            have hjpar : j ≠ par := by
              have := parent_lt_child (show 0 < heapD by decide) hj0 hpj
              omega
            rw [hgp_other, hfs_other j hji hjpar]
            calc prioAt f ((par - 1) / heapD) ≤ prioAt f par := hApar
              _ = prioAt f ((j - 1) / heapD) := by rw [hpj]
              _ ≤ prioAt f j := hA j hj0 hjn hji
        obtain ⟨hw2, hord2, hroot2⟩ :=
          ih par hparlt fs n hwfs (by omega) hA' hB'
        refine ⟨hw2, hord2, ?_⟩
        rw [hroot2, hfs_par, hfi]
        by_cases hp0 : par = 0
        · rw [hp0] at hfs_par hfp
          rw [hfs_par, hfp, min_self, min_eq_right hle]
        · rw [show prioAt fs 0 = prioAt f 0 from hfs_other 0 (by omega) (by omega)]
      · simp only [hle, if_false]
        have hlt : tp.prio < ti.prio := by omega
        have hfi : prioAt f idx = ti.prio := by rw [prioAt, hti]
        have hfp : prioAt f par = tp.prio := by rw [prioAt, htp]
        refine ⟨hw, ?_, ?_⟩
        · intro j hj0 hjn
          by_cases hji : j = idx
          · subst hji
            rw [← hpar, hfp, hfi]
            omega
          · exact hA j hj0 hjn hji
        · have hroot : prioAt f 0 ≤ prioAt f idx := by
            calc prioAt f 0 ≤ prioAt f par :=
                  root_min_except hA par hparlt (by omega)
              _ = tp.prio := hfp
              _ ≤ ti.prio := le_of_lt hlt
              _ = prioAt f idx := hfi.symm
          exact (min_eq_left hroot).symm
    · have h0 : idx = 0 := by omega
      subst h0
      rw [sift_up]
      simp only [lt_irrefl, dif_neg (lt_irrefl 0)]
      refine ⟨hw, ?_, by simp⟩
      intro j hj0 hjn
      exact hA j hj0 hjn (by omega)

theorem descB_false_of_lt {D i j : Nat} (h : j < i) : descB D i j = false := by
  cases hd : descB D i j
  · rfl
  · exact absurd (descB_le hd) (by omega)

theorem descB_parent_of_ne {D c j : Nat} (h : descB D c j = true) (hne : j ≠ c)
    (hj : 0 < j) : descB D c ((j - 1) / D) = true := by
  rw [descB] at h
  simpa [hne, Nat.pos_iff_ne_zero.mp hj] using h

theorem heapD_pos : 0 < heapD := by decide

theorem prioAt_congr {f g : Slots} {i k : Nat} (h : f i = g k) :
    prioAt f i = prioAt g k := by
  simp [prioAt, h]

/-- Inside a subtree ordered along all its internal edges, the subtree root
is a lower bound of every subtree entry in range. -/
theorem chain_bound {f : Slots} {n idx c : Nat}
    (hcd : descB heapD idx c = true) (hlt : idx < c)
    (H1 : ∀ j, descB heapD idx j = true → j ≠ idx → j < n →
      (j - 1) / heapD ≠ idx → prioAt f ((j - 1) / heapD) ≤ prioAt f j) :
    ∀ k, descB heapD c k = true → k < n → prioAt f c ≤ prioAt f k := by
  intro k
  induction k using Nat.strong_induction_on with
  | _ k ihk =>
    intro hk hkn
    by_cases hkc : k = c
    · subst hkc; exact le_refl _
    · have hck : c ≤ k := descB_le hk
      have hk0 : 0 < k := by omega
      have hpk : descB heapD c ((k - 1) / heapD) = true :=
        descB_parent_of_ne hk hkc hk0
      have hplt : (k - 1) / heapD < k := parent_div_lt hk0
      have hpge : c ≤ (k - 1) / heapD := descB_le hpk
      calc prioAt f c ≤ prioAt f ((k - 1) / heapD) :=
            ihk _ hplt hpk (by omega)
        _ ≤ prioAt f k :=
            H1 k (descB_trans hcd hk) (by omega) hkn (by omega)

/-- Correctness of the `sift_down` scan loop.  Hypotheses: slots well
formed, `idx` in range, the scan position `child` at or beyond the first
child, the subtree of `idx` ordered except along the edges leaving `idx`,
and the already-scanned children of `idx` at least the current entry of
`idx`.  Conclusions: well-formedness; slots outside the subtree untouched;
every subtree entry is some old subtree entry; the subtree is fully
ordered; and the entry at `idx` did not increase. -/
theorem sdLoop_spec : ∀ (meas : Nat) (f : Slots) (n idx child : Nat)
    (hic : idx < child),
    meas = 9 * (tasksPerHeap - idx) + (heapD * idx + heapD + 1 - child) →
    wfSlots f n →
    idx < n →
    heapD * idx + 1 ≤ child →
    (∀ j, descB heapD idx j = true → j ≠ idx → j < n →
      (j - 1) / heapD ≠ idx → prioAt f ((j - 1) / heapD) ≤ prioAt f j) →
    (∀ j, heapD * idx + 1 ≤ j → j < child → j < n →
      prioAt f idx ≤ prioAt f j) →
    wfSlots (sdLoop n f idx child hic) n ∧
    (∀ j, descB heapD idx j = false → sdLoop n f idx child hic j = f j) ∧
    (∀ j, descB heapD idx j = true → j < n → ∃ k, descB heapD idx k = true ∧
      k < n ∧ prioAt (sdLoop n f idx child hic) j = prioAt f k) ∧
    (∀ j, descB heapD idx j = true → j ≠ idx → 0 < j → j < n →
      prioAt (sdLoop n f idx child hic) ((j - 1) / heapD) ≤
        prioAt (sdLoop n f idx child hic) j) ∧
    prioAt (sdLoop n f idx child hic) idx ≤ prioAt f idx := by
  intro meas
  induction meas using Nat.strong_induction_on with
  | _ meas ihm =>
    intro f n idx child hic hmeas hw hidx hstart H1 H2
    have hs8 : 8 * idx + 1 ≤ child := by simpa [heapD] using hstart
    rw [sdLoop]
    by_cases hguard : child < tasksPerHeap ∧ child ≤ heapD * idx + heapD
    · rw [dif_pos hguard]
      have hg1 : child < 129 := by simpa [tasksPerHeap] using hguard.1
      have hg2 : child ≤ 8 * idx + 8 := by
        have := hguard.2
        simp only [heapD] at this
        omega
      have hmeas' : meas = 9 * (129 - idx) + (8 * idx + 9 - child) := by
        simp only [heapD, tasksPerHeap] at hmeas
        omega
      have hcpar : (child - 1) / heapD = idx :=
        (child_iff heapD_pos (by omega)).mpr
          (by constructor <;> simp [heapD] <;> omega)
      have hcdesc : descB heapD idx child = true := hcpar ▸ descB_child (by omega)
      -- case analysis on the loop body
      rcases hfc : f child with _ | tc
      · -- null child slot: the body leaves f unchanged
        have hcn : ¬ child < n := by
          intro hlt
          have := (hw.2 child).mpr hlt
          rw [hfc] at this
          simp at this
        have hrec := ihm (9 * (129 - idx) + (8 * idx + 9 - (child + 1)))
          (by omega) f n idx (child + 1) (by omega)
          (by unfold heapD tasksPerHeap; omega)
          hw hidx (by omega) H1
          (fun j hj1 hj2 hj3 => by
            by_cases hje : j = child
            · exact absurd (hje ▸ hj3) hcn
            · exact H2 j hj1 (by omega) hj3)
        simpa [hfc] using hrec
      · obtain ⟨ti, hfi⟩ := isSome_exists hw hidx
        rcases le_or_lt tc.prio ti.prio with hle | hgt
        · -- swap with this child and recurse into its subtree
          have hcn : child < n := (hw.2 child).mp (by rw [hfc]; rfl)
          have hfs_idx : prioAt (swapS f idx child) idx = tc.prio := by
            rw [prioAt_swap_snd f (by omega), prioAt, hfc]
          have hfs_child : prioAt (swapS f idx child) child = ti.prio := by
            rw [prioAt_swap_fst, prioAt, hfi]
          have hfs_other : ∀ k, k ≠ idx → k ≠ child →
              prioAt (swapS f idx child) k = prioAt f k :=
            fun k h1 h2 => prioAt_swap_other f h1 h2
          have hfs_other_s : ∀ k, k ≠ idx → k ≠ child →
              swapS f idx child k = f k :=
            fun k h1 h2 => by simp [swapS, upd, h1, h2]
          have hwfs : wfSlots (swapS f idx child) n := wf_swap hw hidx hcn
          have hpi : prioAt f idx = ti.prio := by rw [prioAt, hfi]
          have hpc : prioAt f child = tc.prio := by rw [prioAt, hfc]
          -- the inner recursive call on the child subtree
          have hH1c : ∀ j, descB heapD child j = true → j ≠ child → j < n →
              (j - 1) / heapD ≠ child →
              prioAt (swapS f idx child) ((j - 1) / heapD) ≤
                prioAt (swapS f idx child) j := by
            intro j hjd hjc hjn hjp
            have hjge : child ≤ j := descB_le hjd
            have hj0 : 0 < j := by omega
            have hpdesc : descB heapD child ((j - 1) / heapD) = true :=
              descB_parent_of_ne hjd hjc hj0
            have hpge : child ≤ (j - 1) / heapD := descB_le hpdesc
            rw [hfs_other j (by omega) hjc,
              hfs_other ((j - 1) / heapD) (by omega) hjp]
            exact H1 j (descB_trans hcdesc hjd) (by omega) hjn (by omega)
          have hrec1 := ihm (9 * (129 - child) + 8)
            (by omega) (swapS f idx child) n child (heapD * child + 1)
            (by unfold heapD; omega)
            (by unfold heapD tasksPerHeap; omega)
            hwfs hcn (le_refl _) hH1c
            (fun j hj1 hj2 _ => by simp [heapD] at hj1 hj2; omega)
          obtain ⟨hwf3, hout3, hval3, hord3, hroot3⟩ := hrec1
          set f3 := sdLoop n (swapS f idx child) child (heapD * child + 1)
            (by unfold heapD; omega) with hf3
          have hf3_idx : prioAt f3 idx = tc.prio := by
            rw [prioAt_congr (hout3 idx (descB_false_of_lt (by omega))), hfs_idx]
          -- bound on the child's subtree entries after the inner call
          have hsub_bound : ∀ k, descB heapD child k = true → k < n →
              tc.prio ≤ prioAt (swapS f idx child) k := by
            intro k hk hkn
            by_cases hkc : k = child
            · subst hkc
              rw [hfs_child]
              exact hle
            · have hkg : child < k := by
                have := descB_le hk
                omega
              rw [hfs_other k (by omega) hkc]
              calc tc.prio = prioAt f child := hpc.symm
                _ ≤ prioAt f k := chain_bound hcdesc (by omega) H1 k hk hkn
          -- hypotheses for the loop continuation
          have hH1' : ∀ j, descB heapD idx j = true → j ≠ idx → j < n →
              (j - 1) / heapD ≠ idx →
              prioAt f3 ((j - 1) / heapD) ≤ prioAt f3 j := by
            intro j hjd hji hjn hjp
            by_cases hjc : descB heapD child j = true
            · have hjceq : j ≠ child := by
                intro he
                exact hjp (he ▸ hcpar)
              exact hord3 j hjc hjceq (by have := descB_le hjc; omega) hjn
            · have hjnec : j ≠ child := by
                intro he
                rw [he, descB_refl] at hjc
                exact hjc rfl
              have hj0 : 0 < j := by
                rcases Nat.eq_zero_or_pos j with h0 | h0
                · exfalso
                  subst h0
                  exact hji (Nat.le_zero.mp (descB_le hjd)).symm
                · exact h0
              have hpnc : descB heapD child ((j - 1) / heapD) = false := by
                cases hpc2 : descB heapD child ((j - 1) / heapD)
                · rfl
                · exact absurd (descB_of_parent hj0 hpc2) hjc
              have hpnec : (j - 1) / heapD ≠ child := by
                intro he
                rw [he, descB_refl] at hpnc
                simp at hpnc
              rw [prioAt_congr (hout3 j (by simpa using hjc)),
                prioAt_congr (hout3 _ hpnc), hfs_other j hji hjnec,
                hfs_other _ hjp hpnec]
              exact H1 j hjd hji hjn hjp
          have hH2' : ∀ j, heapD * idx + 1 ≤ j → j < child + 1 → j < n →
              prioAt f3 idx ≤ prioAt f3 j := by
            intro j hj1 hj2 hjn
            rw [hf3_idx]
            by_cases hje : j = child
            · subst hje
              obtain ⟨k, hk, hkn, hkeq⟩ := hval3 j (descB_refl _ _) hjn
              rw [hkeq]
              exact hsub_bound k hk hkn
            · have hjlt : j < child := by omega
              have hjnc : descB heapD child j = false := descB_false_of_lt hjlt
              have hjni : j ≠ idx := by
                have hj1n : 8 * idx + 1 ≤ j := by simpa [heapD] using hj1
                omega
              rw [prioAt_congr (hout3 j hjnc), hfs_other j hjni hje]
              calc tc.prio ≤ ti.prio := hle
                _ = prioAt f idx := hpi.symm
                _ ≤ prioAt f j := H2 j hj1 hjlt hjn
          have hrec2 := ihm (9 * (129 - idx) + (8 * idx + 9 - (child + 1)))
            (by omega) f3 n idx (child + 1) (by omega)
            (by unfold heapD tasksPerHeap; omega)
            hwf3 hidx (by omega) hH1' hH2'
          obtain ⟨hwf4, hout4, hval4, hord4, hroot4⟩ := hrec2
          -- the goal's body reduces to the continuation on f3
          rw [hfi]
          simp only [hle, hcn, if_true]
          refine ⟨hwf4, ?_, ?_, ?_, ?_⟩
          · -- outside the subtree nothing changed
            intro j hj
            have hjc : descB heapD child j = false := by
              cases hd : descB heapD child j
              · rfl
              · exact absurd (descB_trans hcdesc hd) (by simp [hj])
            have hji : j ≠ idx := by
              intro he
              rw [he, descB_refl] at hj
              simp at hj
            have hjch : j ≠ child := by
              intro he
              rw [he, hcdesc] at hj
              simp at hj
            rw [hout4 j hj, hout3 j hjc, hfs_other_s j hji hjch]
          · -- every subtree entry is an old subtree entry
            intro j hjd hjn
            obtain ⟨k1, hk1d, hk1n, hk1⟩ := hval4 j hjd hjn
            by_cases hk1c : descB heapD child k1 = true
            · obtain ⟨k2, hk2d, hk2n, hk2⟩ := hval3 k1 hk1c hk1n
              by_cases hk2c : k2 = child
              · refine ⟨idx, descB_refl _ _, hidx, ?_⟩
                rw [hk1, hk2, hk2c, hfs_child, hpi]
              · have : child < k2 := by
                  have := descB_le hk2d
                  omega
                refine ⟨k2, descB_trans hcdesc hk2d, hk2n, ?_⟩
                rw [hk1, hk2, hfs_other k2 (by omega) hk2c]
            · by_cases hk1i : k1 = idx
              · refine ⟨child, hcdesc, hcn, ?_⟩
                rw [hk1, hk1i, hf3_idx, hpc]
              · have hk1ch : k1 ≠ child := by
                  intro he
                  rw [he, descB_refl] at hk1c
                  exact hk1c rfl
                refine ⟨k1, hk1d, hk1n, ?_⟩
                rw [hk1, prioAt_congr (hout3 k1 (by simpa using hk1c)),
                  hfs_other k1 hk1i hk1ch]
          · exact hord4
          · calc prioAt (sdLoop n f3 idx (child + 1) (by omega)) idx
                ≤ prioAt f3 idx := hroot4
              _ = tc.prio := hf3_idx
              _ ≤ ti.prio := hle
              _ = prioAt f idx := hpi.symm
        · -- child's priority is larger: no swap, continue the scan
          have hrec := ihm (9 * (129 - idx) + (8 * idx + 9 - (child + 1)))
            (by omega) f n idx (child + 1) (by omega)
            (by unfold heapD tasksPerHeap; omega)
            hw hidx (by omega) H1
            (fun j hj1 hj2 hj3 => by
              by_cases hje : j = child
              · have hpi : prioAt f idx = ti.prio := by rw [prioAt, hfi]
                have hpc : prioAt f child = tc.prio := by rw [prioAt, hfc]
                rw [hje, hpc, hpi]
                exact le_of_lt hgt
              · exact H2 j hj1 (by omega) hj3)
          rw [hfi]
          simp only [not_le.mpr hgt, if_false]
          exact hrec
    · rw [dif_neg hguard]
      have hng : ¬ (child < 129 ∧ child ≤ 8 * idx + 8) := by
        simpa [tasksPerHeap, heapD] using hguard
      refine ⟨hw, fun j _ => rfl, fun j hjd hjn => ⟨j, hjd, hjn, rfl⟩, ?_, le_refl _⟩
      intro j hjd hji hj0 hjn
      by_cases hpj : (j - 1) / heapD = idx
      · have hjch := (child_iff heapD_pos hj0).mp hpj
        have hjch8 : 8 * idx + 1 ≤ j ∧ j ≤ 8 * idx + 8 := by
          simpa [heapD] using hjch
        have hn129 : n ≤ 129 := by
          have := hw.1
          simpa [tasksPerHeap] using this
        rw [hpj]
        exact H2 j (by simp [heapD]; omega) (by omega) hjn
      · exact H1 j hjd hji hjn hpj

/-- Every slot after `sift_up` is one of the original slots. -/
theorem sift_up_slots : ∀ idx (f : Slots) (j : Nat), ∃ k, sift_up f idx j = f k := by
  intro idx
  induction idx using Nat.strong_induction_on with
  | _ idx ih =>
    intro f j
    by_cases hpos : 0 < idx
    · rw [sift_up, dif_pos hpos]
      rcases hfi : f idx with _ | ti
      · exact ⟨j, rfl⟩
      · rcases hfp : f ((idx - 1) / heapD) with _ | tp
        · exact ⟨j, rfl⟩
        · by_cases hle : ti.prio ≤ tp.prio
          · simp only [hle, if_true]
            obtain ⟨k, hk⟩ := ih _ (parent_div_lt hpos) (swapS f idx ((idx - 1) / heapD)) j
            rw [hk]
            by_cases hk1 : k = (idx - 1) / heapD
            · exact ⟨idx, by simp [swapS, upd, hk1]⟩
            · by_cases hk2 : k = idx
              · refine ⟨(idx - 1) / heapD, ?_⟩
                have hip : ¬ idx = (idx - 1) / heapD := by
                  have := parent_div_lt hpos
                  omega
                simp [swapS, upd, hk1, hk2, hip]
              · exact ⟨k, by simp [swapS, upd, hk1, hk2]⟩
          · simp only [hle, if_false]
            exact ⟨j, rfl⟩
    · rw [sift_up, dif_neg hpos]
      exact ⟨j, rfl⟩

/-- Every slot after the `sift_down` scan is one of the original slots. -/
theorem sdLoop_slots : ∀ (meas : Nat) (f : Slots) (n idx child : Nat)
    (hic : idx < child),
    meas = 9 * (tasksPerHeap - idx) + (heapD * idx + heapD + 1 - child) →
    heapD * idx + 1 ≤ child →
    ∀ j, ∃ k, sdLoop n f idx child hic j = f k := by
  intro meas
  induction meas using Nat.strong_induction_on with
  | _ meas ihm =>
    intro f n idx child hic hmeas hstart j
    have hs8 : 8 * idx + 1 ≤ child := by simpa [heapD] using hstart
    rw [sdLoop]
    by_cases hguard : child < tasksPerHeap ∧ child ≤ heapD * idx + heapD
    · rw [dif_pos hguard]
      have hg1 : child < 129 := by simpa [tasksPerHeap] using hguard.1
      have hg2 : child ≤ 8 * idx + 8 := by
        have := hguard.2
        simp only [heapD] at this
        omega
      have hmeas' : meas = 9 * (129 - idx) + (8 * idx + 9 - child) := by
        simp only [heapD, tasksPerHeap] at hmeas
        omega
      have hnext : ∀ (g : Slots), (∀ i, ∃ k, g i = f k) →
          ∃ k, sdLoop n g idx (child + 1) (by omega) j = f k := by
        intro g hg
        obtain ⟨k1, hk1⟩ := ihm (9 * (129 - idx) + (8 * idx + 9 - (child + 1)))
          (by omega) g n idx (child + 1) (by omega)
          (by unfold heapD tasksPerHeap; omega) (by omega) j
        obtain ⟨k2, hk2⟩ := hg k1
        exact ⟨k2, by rw [hk1, hk2]⟩
      rcases hfc : f child with _ | tc
      · exact hnext f (fun i => ⟨i, rfl⟩)
      · rcases hfi : f idx with _ | ti
        · exact hnext f (fun i => ⟨i, rfl⟩)
        · by_cases hle : tc.prio ≤ ti.prio
          · simp only [hle, if_true]
            by_cases hcn : child < n
            · rw [if_pos hcn]
              refine hnext _ (fun i => ?_)
              obtain ⟨k1, hk1⟩ := ihm (9 * (129 - child) + 8)
                (by omega) (swapS f idx child) n child (heapD * child + 1)
                (by unfold heapD; omega) (by unfold heapD tasksPerHeap; omega)
                (le_refl _) i
              rw [hk1]
              by_cases hk2 : k1 = child
              · exact ⟨idx, by simp [swapS, upd, hk2]⟩
              · by_cases hk3 : k1 = idx
                · refine ⟨child, ?_⟩
                  have hip : ¬ idx = child := by omega
                  simp [swapS, upd, hk2, hk3, hip]
                · exact ⟨k1, by simp [swapS, upd, hk2, hk3]⟩
            · rw [if_neg hcn]
              refine hnext _ (fun i => ?_)
              by_cases hk2 : i = child
              · exact ⟨idx, by simp [swapS, upd, hk2]⟩
              · by_cases hk3 : i = idx
                · refine ⟨child, ?_⟩
                  have hip : ¬ idx = child := by omega
                  simp [swapS, upd, hk2, hk3, hip]
                · exact ⟨i, by simp [swapS, upd, hk2, hk3]⟩
          · simp only [hle, if_false]
            exact hnext f (fun i => ⟨i, rfl⟩)
    · rw [dif_neg hguard]
      exact ⟨j, rfl⟩

theorem sift_down_slots (n : Nat) (f : Slots) (idx : Nat) :
    ∀ j, ∃ k, sift_down n f idx j = f k := by
  intro j
  rw [sift_down]
  by_cases hidx : idx < n
  · rw [if_pos hidx]
    exact sdLoop_slots _ f n idx (heapD * idx + 1) _ rfl (le_refl _) j
  · rw [if_neg hidx]
    exact ⟨j, rfl⟩

/-- Correctness of `sift_down`: restores full order on the subtree of
`idx` when order held except along the edges leaving `idx`. -/
theorem sift_down_spec (f : Slots) (n idx : Nat) (hw : wfSlots f n)
    (H1 : ∀ j, descB heapD idx j = true → j ≠ idx → j < n →
      (j - 1) / heapD ≠ idx → prioAt f ((j - 1) / heapD) ≤ prioAt f j) :
    wfSlots (sift_down n f idx) n ∧
    (∀ j, descB heapD idx j = true → j ≠ idx → 0 < j → j < n →
      prioAt (sift_down n f idx) ((j - 1) / heapD) ≤
        prioAt (sift_down n f idx) j) := by
  rw [sift_down]
  by_cases hidx : idx < n
  · rw [if_pos hidx]
    obtain ⟨hwf, _, _, hord, _⟩ := sdLoop_spec _ f n idx (heapD * idx + 1) _
      rfl hw hidx (le_refl _)
      H1 (fun j hj1 hj2 _ => by omega)
    exact ⟨hwf, hord⟩
  · rw [if_neg hidx]
    refine ⟨hw, ?_⟩
    intro j hjd _ _ hjn
    have := descB_le hjd
    omega

/-! ### Specifications of the heap operations -/

theorem heapWF_prio_le {h : Heap} (hwf : heapWF h) : h.prio ≤ prioEmpty := by
  obtain ⟨hw, _, hs, hb⟩ := hwf
  rcases Nat.eq_zero_or_pos h.ntasks with h0 | h0
  · rw [hs.2 h0]
  · rw [hs.1 h0]
    exact hb 0

/-- Full behaviour of `multiq_insert` on the chosen heap: on a full heap it
returns `-1` leaving the heap untouched but with `task->prio` already
overwritten; otherwise it stores the task, re-establishes every heap
invariant, grows the count by one and publishes the correct summary. -/
theorem multiq_insert_spec (h : Heap) (t : Task) (p : Int)
    (hwf : heapWF h) (hp : p ≤ prioEmpty) :
    (tasksPerHeap ≤ h.ntasks →
      multiq_insert h t p = (h, { t with prio := p }, -1)) ∧
    (h.ntasks < tasksPerHeap →
      (multiq_insert h t p).2.1 = { t with prio := p } ∧
      (multiq_insert h t p).2.2 = 0 ∧
      (multiq_insert h t p).1.ntasks = h.ntasks + 1 ∧
      heapWF (multiq_insert h t p).1) := by
  obtain ⟨hw, ho, hs, hb⟩ := hwf
  constructor
  · intro hfull
    rw [multiq_insert, if_pos hfull]
  · intro hlt
    rw [multiq_insert, if_neg (by omega)]
    refine ⟨rfl, rfl, rfl, ?_⟩
    set t2 : Task := { t with prio := p } with ht2
    set n := h.ntasks with hn
    set f1 := upd h.tasks n (some t2) with hf1
    have hw1 : wfSlots f1 (n + 1) := by
      refine ⟨by omega, fun i => ?_⟩
      by_cases hi : i = n
      · subst hi
        rw [hf1, upd_self]
        simp
      · rw [hf1, upd_other _ _ _ hi]
        rw [hw.2 i]
        omega
    have hA1 : ∀ j, 0 < j → j < n + 1 → j ≠ n →
        prioAt f1 ((j - 1) / heapD) ≤ prioAt f1 j := by
      intro j hj0 hjn hjne
      have hjlt : j < n := by omega
      have hplt : (j - 1) / heapD < j := parent_div_lt hj0
      rw [prioAt_congr (upd_other h.tasks n (some t2) (by omega)),
        prioAt_congr (upd_other h.tasks n (some t2) (by omega))]
      exact ho j hj0 hjlt
    have hB1 : 0 < n → ∀ j, (j - 1) / heapD = n → j < n + 1 →
        prioAt f1 ((n - 1) / heapD) ≤ prioAt f1 j := by
      intro hn0 j hpj hjn
      exfalso
      have hj0 : 0 < j := by
        rcases Nat.eq_zero_or_pos j with h0 | h0
        · subst h0
          simp at hpj
          omega
        · exact h0
      have := (child_iff heapD_pos hj0).mp hpj
      have hnn : n ≤ heapD * n := Nat.le_mul_of_pos_left n heapD_pos
      omega
    obtain ⟨hw2, hord2, hroot2⟩ := sift_up_spec n f1 (n + 1) hw1 (by omega) hA1 hB1
    have hf1n : prioAt f1 n = p := by
      rw [prioAt, hf1, upd_self]
    refine ⟨hw2, fun j hj0 hjn => hord2 j hj0 hjn, ?_, ?_⟩
    · -- summary invariant
      refine ⟨fun _ => ?_, fun h0 => absurd h0 (by simp)⟩
      show (if p < h.prio then p else h.prio) = prioAt (sift_up f1 n) 0
      rw [hroot2, hf1n]
      rcases Nat.eq_zero_or_pos n with h0 | h0
      · have hroot1 : prioAt f1 0 = p := h0 ▸ hf1n
        rw [hroot1, min_self, hs.2 h0]
        by_cases hpe : p < prioEmpty
        · rw [if_pos hpe]
        · rw [if_neg hpe]
          omega
      · have hroot1 : prioAt f1 0 = prioAt h.tasks 0 :=
          prioAt_congr (upd_other h.tasks n (some t2) (by omega))
        rw [hroot1, hs.1 h0]
        by_cases hpe : p < prioAt h.tasks 0
        · rw [if_pos hpe, min_eq_right (le_of_lt hpe)]
        · rw [if_neg hpe, min_eq_left (by omega)]
    · -- priorities stay int16-bounded
      intro i
      obtain ⟨k, hk⟩ := sift_up_slots n f1 i
      show prioAt (sift_up f1 n) i ≤ prioEmpty
      rw [prioAt_congr hk]
      by_cases hkn : k = n
      · subst hkn
        rw [hf1n]
        exact hp
      · rw [prioAt_congr (upd_other h.tasks n (some t2) hkn)]
        exact hb k

/-- Full behaviour of the extraction phase of `multiq_deletemin` on the
committed (nonempty) heap: the root task is returned, the count drops by
exactly one, the vacated slot becomes null, and every heap invariant is
re-established. -/
theorem mq_extract_spec (h : Heap) (hwf : heapWF h) (hne : 0 < h.ntasks) :
    (mq_extract h).1 = h.tasks 0 ∧
    ((mq_extract h).1).isSome ∧
    (mq_extract h).2.ntasks + 1 = h.ntasks ∧
    (mq_extract h).2.tasks (h.ntasks - 1) = none ∧
    heapWF (mq_extract h).2 := by
  obtain ⟨hw, ho, hs, hb⟩ := hwf
  have hsome0 : (h.tasks 0).isSome := (hw.2 0).mpr hne
  set n := h.ntasks with hn
  set f1 := upd (upd h.tasks 0 (h.tasks (n - 1))) (n - 1) none with hf1
  have hval1 : ∀ i, f1 i = none ∨ f1 i = h.tasks (n - 1) ∨ f1 i = h.tasks i := by
    intro i
    by_cases hi1 : i = n - 1
    · refine Or.inl ?_
      rw [hf1, hi1]
      exact upd_self _ _ _
    · by_cases hi0 : i = 0
      · refine Or.inr (Or.inl ?_)
        rw [hf1, upd_other _ _ _ hi1, hi0]
        exact upd_self _ _ _
      · refine Or.inr (Or.inr ?_)
        rw [hf1, upd_other _ _ _ hi1, upd_other _ _ _ hi0]
  have hw1 : wfSlots f1 (n - 1) := by
    refine ⟨by have := hw.1; omega, fun i => ?_⟩
    by_cases hi1 : i = n - 1
    · subst hi1
      rw [hf1, upd_self]
      simp
    · by_cases hi0 : i = 0
      · subst hi0
        rw [hf1, upd_other _ _ _ hi1, upd_self]
        rw [hw.2 (n - 1)]
        omega
      · rw [hf1, upd_other _ _ _ hi1, upd_other _ _ _ hi0]
        rw [hw.2 i]
        omega
  have hb1 : prioBdd f1 := by
    intro i
    rcases hval1 i with hv | hv | hv
    · rw [prioAt, hv]
    · rw [prioAt_congr hv]
      exact hb (n - 1)
    · rw [prioAt_congr hv]
      exact hb i
  rw [mq_extract]
  by_cases h1 : 0 < n - 1
  · rw [if_pos h1]
    have hH1 : ∀ j, descB heapD 0 j = true → j ≠ 0 → j < n - 1 →
        (j - 1) / heapD ≠ 0 → prioAt f1 ((j - 1) / heapD) ≤ prioAt f1 j := by
      intro j _ hj0 hjn hpj
      have hj0p : 0 < j := by omega
      have hplt : (j - 1) / heapD < j := parent_div_lt hj0p
      have e1 : f1 j = h.tasks j := by
        rw [hf1, upd_other _ _ _ (by omega), upd_other _ _ _ (by omega)]
      have e2 : f1 ((j - 1) / heapD) = h.tasks ((j - 1) / heapD) := by
        rw [hf1, upd_other _ _ _ (by omega), upd_other _ _ _ (by omega)]
      rw [prioAt_congr e1, prioAt_congr e2]
      exact ho j hj0p (by omega)
    obtain ⟨hw2, hord2⟩ := sift_down_spec f1 (n - 1) 0 hw1 hH1
    refine ⟨rfl, hsome0, by simp; omega, ?_, ?_⟩
    · -- the vacated slot is null
      have := (hw2.2 (n - 1))
      simp only at this
      have h2 : ¬ ((sift_down (n - 1) f1 0) (n - 1)).isSome = true := by
        rw [this]
        omega
      simpa using h2
    · refine ⟨hw2, ?_, ?_, ?_⟩
      · intro j hj0 hjn
        exact hord2 j (descB_zero _ _) (by omega) hj0 hjn
      · exact ⟨fun _ => rfl, fun hz => absurd (show n - 1 = 0 from hz) (by omega)⟩
      · intro i
        obtain ⟨k, hk⟩ := sift_down_slots (n - 1) f1 0 i
        rw [prioAt_congr hk]
        exact hb1 k
  · rw [if_neg h1]
    refine ⟨rfl, hsome0, by simp; omega, ?_, ?_⟩
    · have := (hw1.2 (n - 1))
      have h2 : ¬ (f1 (n - 1)).isSome = true := by
        rw [this]
        omega
      simpa using h2
    · refine ⟨by simpa using hw1, ?_, ?_, by simpa using hb1⟩
      · intro j hj0 hjn
        have hjn2 : j < n - 1 := hjn
        omega
      · exact ⟨fun hz => absurd (show 0 < n - 1 from hz) h1, fun _ => rfl⟩

/-- A committed probe found a heap whose published summary is strictly
below `PRIO_EMPTY`. -/
theorem mqProbe_commit {mq : Nat → Heap} {r : Nat}
    (hB : ∀ i, (mq i).prio ≤ prioEmpty) :
    ∀ ps : List (Nat × Nat), mqProbe mq ps = some r →
      (mq r).prio < prioEmpty := by
  intro ps
  induction ps with
  | nil => intro h; simp [mqProbe] at h
  | cons a rest ihr =>
    intro h
    rw [mqProbe] at h
    by_cases h1 : (mq a.2).prio < (mq a.1).prio
    · rw [if_pos h1] at h
      have : a.2 = r := by simpa using h
      subst this
      have := hB a.1
      omega
    · rw [if_neg h1] at h
      by_cases h2 : (mq a.1).prio = (mq a.2).prio ∧ (mq a.1).prio = prioEmpty
      · rw [if_pos h2] at h
        exact ihr h
      · rw [if_neg h2] at h
        have : a.1 = r := by simpa using h
        subst this
        have hb1 := hB a.1
        have hb2 := hB a.2
        rcases lt_or_eq_of_le hb1 with hlt | heq
        · exact hlt
        · exfalso
          exact h2 ⟨by omega, heq⟩

/-! ### Concrete heaps used by the witnesses -/

/-- A heap at capacity: all `tasks_per_heap` slots hold a task. -/
def fullHeap : Heap :=
  { tasks := fun i => if i < tasksPerHeap then some ⟨0, 0⟩ else none,
    ntasks := tasksPerHeap, prio := 0 }

/-- A well-formed heap holding exactly one task of priority `5`. -/
def oneHeap : Heap :=
  { tasks := fun i => if i = 0 then some ⟨3, 5⟩ else none,
    ntasks := 1, prio := 5 }

/-- A multiqueue in which every heap is `fullHeap`. -/
def mqFull : Nat → Heap := fun _ => fullHeap

/-- A multiqueue in which every heap is `oneHeap`. -/
def mq1 : Nat → Heap := fun _ => oneHeap

theorem oneHeap_wf : heapWF oneHeap := by
  refine ⟨⟨by decide, fun i => ?_⟩, ?_, ⟨fun _ => rfl, fun hz => ?_⟩, fun i => ?_⟩
  · by_cases hi : i = 0
    · simp [oneHeap, hi]
    · simp [oneHeap, hi]
  · intro j hj0 hjn
    have h2 : j < 1 := hjn
    omega
  · exact absurd (show (1 : Nat) = 0 from hz) (by decide)
  · by_cases hi : i = 0
    · simp [oneHeap, prioAt, prioEmpty, hi]
    · simp [oneHeap, prioAt, prioEmpty, hi]

/-! ### Claim theorems: the multiqueue -/

/-- C2, counterexample: inserting with priority `3` into a full heap a task
whose `prio` field was `5` returns `FULL` — but the task's `prio` field has
been overwritten to `3` (line `task->prio = priority` runs before the
capacity check), contradicting the claim that no field of `t` is
modified. -/
theorem C2_counterexample :
    (multiq_insert_mq mqFull 0 ⟨7, 5⟩ 3).2.2 = -1 ∧
    (multiq_insert_mq mqFull 0 ⟨7, 5⟩ 3).2.1.prio = 3 ∧
    ¬ (multiq_insert_mq mqFull 0 ⟨7, 5⟩ 3).2.1 = ⟨7, 5⟩ := by
  refine ⟨?_, ?_, ?_⟩ <;> decide

/-- C2 (amended): if the randomly chosen heap is at capacity,
`multiq_insert` returns the FULL code `-1` and leaves every heap of the
multiqueue unchanged (array, count and published summary); however,
`t.prio` has already been set to the requested priority — the only field
of `t` that is modified. -/
theorem C2_full_insert_amended (mq : Nat → Heap) (rn : Nat) (t : Task)
    (p : Int) (hfull : tasksPerHeap ≤ (mq rn).ntasks) :
    (multiq_insert_mq mq rn t p).2.2 = -1 ∧
    (∀ i, (multiq_insert_mq mq rn t p).1 i = mq i) ∧
    (multiq_insert_mq mq rn t p).2.1 = { t with prio := p } := by
  have he : multiq_insert (mq rn) t p = (mq rn, { t with prio := p }, -1) := by
    rw [multiq_insert, if_pos hfull]
  refine ⟨?_, fun i => ?_, ?_⟩
  · show (multiq_insert (mq rn) t p).2.2 = -1
    rw [he]
  · show (if i = rn then (multiq_insert (mq rn) t p).1 else mq i) = mq i
    rw [he]
    by_cases hi : i = rn
    · rw [if_pos hi, hi]
    · rw [if_neg hi]
  · show (multiq_insert (mq rn) t p).2.1 = { t with prio := p }
    rw [he]

theorem C2_full_insert_amended_witness :
    tasksPerHeap ≤ (mqFull 0 : Heap).ntasks ∧
    ((multiq_insert_mq mqFull 0 ⟨7, 5⟩ 3).2.2 = -1 ∧
     (∀ i, (multiq_insert_mq mqFull 0 ⟨7, 5⟩ 3).1 i =
        mqFull i) ∧
     (multiq_insert_mq mqFull 0 ⟨7, 5⟩ 3).2.1 =
        { id := 7, prio := 3 }) :=
  ⟨by decide, C2_full_insert_amended mqFull 0 ⟨7, 5⟩ 3 (by decide)⟩

/-- C4: after a completed `multiq_insert` (on a well-formed heap, with an
`int16_t` priority) and after a completed `multiq_deletemin`, every heap's
published summary equals its root priority when nonempty and `PRIO_EMPTY`
when empty. -/
theorem C4_summary_invariant :
    (∀ (h : Heap) (t : Task) (p : Int), heapWF h → p ≤ prioEmpty →
      summaryInv (multiq_insert h t p).1) ∧
    (∀ (mq : Nat → Heap) (ps : List (Nat × Nat)), (∀ i, heapWF (mq i)) →
      ∀ r, summaryInv ((multiq_deletemin mq ps).2 r)) := by
  constructor
  · intro h t p hwf hp
    obtain ⟨hfull, hok⟩ := multiq_insert_spec h t p hwf hp
    by_cases hc : tasksPerHeap ≤ h.ntasks
    · rw [hfull hc]
      exact hwf.2.2.1
    · exact (hok (by omega)).2.2.2.2.2.1
  · intro mq ps hwf r
    rw [multiq_deletemin]
    rcases hpr : mqProbe mq ps with _ | rn
    · exact (hwf r).2.2.1
    · show summaryInv (if r = rn then (mq_extract (mq rn)).2 else mq r)
      by_cases hr : r = rn
      · rw [if_pos hr]
        have hlt := mqProbe_commit (fun i => heapWF_prio_le (hwf i)) ps hpr
        have hne : 0 < (mq rn).ntasks := by
          rcases Nat.eq_zero_or_pos (mq rn).ntasks with h0 | h0
          · rw [(hwf rn).2.2.1.2 h0] at hlt
            omega
          · exact h0
        exact (mq_extract_spec (mq rn) (hwf rn) hne).2.2.2.2.2.2.1
      · rw [if_neg hr]
        exact (hwf r).2.2.1

theorem C4_summary_invariant_witness :
    (heapWF oneHeap ∧ (3 : Int) ≤ prioEmpty ∧
      summaryInv (multiq_insert oneHeap ⟨4, 3⟩ 3).1) ∧
    ((∀ i, heapWF (mq1 i)) ∧
      summaryInv ((multiq_deletemin mq1 [(0, 0)]).2 0)) :=
  ⟨⟨oneHeap_wf, by decide,
      C4_summary_invariant.1 oneHeap ⟨4, 3⟩ 3 oneHeap_wf (by decide)⟩,
   ⟨fun _ => oneHeap_wf,
      C4_summary_invariant.2 mq1 [(0, 0)]
        (fun _ => oneHeap_wf) 0⟩⟩

/-- C5: starting from a heap satisfying the §3 invariants, the d-ary heap
order with `d = 8` is preserved both by `multiq_insert` (via `sift_up`)
and by `multiq_deletemin` (via `sift_down`): afterwards, for every index
`i > 0` below the count, `tasks[(i-1)/8].prio ≤ tasks[i].prio`. -/
theorem C5_heap_order_preserved :
    (∀ (h : Heap) (t : Task) (p : Int), heapWF h → p ≤ prioEmpty →
      heapOrder (multiq_insert h t p).1.tasks (multiq_insert h t p).1.ntasks) ∧
    (∀ (mq : Nat → Heap) (ps : List (Nat × Nat)), (∀ i, heapWF (mq i)) →
      ∀ r, heapOrder ((multiq_deletemin mq ps).2 r).tasks
        ((multiq_deletemin mq ps).2 r).ntasks) := by
  constructor
  · intro h t p hwf hp
    obtain ⟨hfull, hok⟩ := multiq_insert_spec h t p hwf hp
    by_cases hc : tasksPerHeap ≤ h.ntasks
    · rw [hfull hc]
      exact hwf.2.1
    · exact (hok (by omega)).2.2.2.2.1
  · intro mq ps hwf r
    rw [multiq_deletemin]
    rcases hpr : mqProbe mq ps with _ | rn
    · exact (hwf r).2.1
    · show heapOrder (if r = rn then (mq_extract (mq rn)).2 else mq r).tasks
        (if r = rn then (mq_extract (mq rn)).2 else mq r).ntasks
      by_cases hr : r = rn
      · rw [if_pos hr]
        have hlt := mqProbe_commit (fun i => heapWF_prio_le (hwf i)) ps hpr
        have hne : 0 < (mq rn).ntasks := by
          rcases Nat.eq_zero_or_pos (mq rn).ntasks with h0 | h0
          · rw [(hwf rn).2.2.1.2 h0] at hlt
            omega
          · exact h0
        exact (mq_extract_spec (mq rn) (hwf rn) hne).2.2.2.2.2.1
      · rw [if_neg hr]
        exact (hwf r).2.1

theorem C5_heap_order_preserved_witness :
    (heapWF oneHeap ∧ (3 : Int) ≤ prioEmpty ∧
      heapOrder (multiq_insert oneHeap ⟨4, 3⟩ 3).1.tasks
        (multiq_insert oneHeap ⟨4, 3⟩ 3).1.ntasks) ∧
    ((∀ i, heapWF (mq1 i)) ∧
      heapOrder ((multiq_deletemin mq1 [(0, 0)]).2 0).tasks
        ((multiq_deletemin mq1 [(0, 0)]).2 0).ntasks) :=
  ⟨⟨oneHeap_wf, by decide,
      C5_heap_order_preserved.1 oneHeap ⟨4, 3⟩ 3 oneHeap_wf (by decide)⟩,
   ⟨fun _ => oneHeap_wf,
      C5_heap_order_preserved.2 mq1 [(0, 0)]
        (fun _ => oneHeap_wf) 0⟩⟩

/-- C10: on a multiqueue whose heaps satisfy the §3 invariants,
`multiq_deletemin` either returns `none` (leaving the heaps unchanged) or
commits to a heap with `ntasks ≥ 1` and returns its non-null root task;
the committed heap's count drops by exactly one (no underflow), the
vacated slot is reset to null, and no other heap changes. -/
theorem C10_deletemin_safety (mq : Nat → Heap) (ps : List (Nat × Nat))
    (hwf : ∀ i, heapWF (mq i)) :
    (mqProbe mq ps = none → (multiq_deletemin mq ps).1 = none ∧
      ∀ i, (multiq_deletemin mq ps).2 i = mq i) ∧
    (∀ rn, mqProbe mq ps = some rn →
      1 ≤ (mq rn).ntasks ∧
      ((multiq_deletemin mq ps).1).isSome ∧
      ((multiq_deletemin mq ps).2 rn).ntasks + 1 = (mq rn).ntasks ∧
      ((multiq_deletemin mq ps).2 rn).tasks ((mq rn).ntasks - 1) = none ∧
      ∀ i, i ≠ rn → (multiq_deletemin mq ps).2 i = mq i) := by
  constructor
  · intro hpr
    rw [multiq_deletemin, hpr]
    exact ⟨rfl, fun i => rfl⟩
  · intro rn hpr
    rw [multiq_deletemin, hpr]
    have hlt := mqProbe_commit (fun i => heapWF_prio_le (hwf i)) ps hpr
    have hne : 0 < (mq rn).ntasks := by
      rcases Nat.eq_zero_or_pos (mq rn).ntasks with h0 | h0
      · rw [(hwf rn).2.2.1.2 h0] at hlt
        omega
      · exact h0
    obtain ⟨hroot, hsome, hdec, hslot, _⟩ := mq_extract_spec (mq rn) (hwf rn) hne
    refine ⟨hne, ?_, ?_, ?_, fun i hi => ?_⟩
    · show ((mq_extract (mq rn)).1).isSome
      exact hsome
    · show ((if rn = rn then (mq_extract (mq rn)).2 else mq rn)).ntasks + 1 =
        (mq rn).ntasks
      rw [if_pos rfl]
      exact hdec
    · show ((if rn = rn then (mq_extract (mq rn)).2 else mq rn)).tasks
        ((mq rn).ntasks - 1) = none
      rw [if_pos rfl]
      exact hslot
    · show (if i = rn then (mq_extract (mq rn)).2 else mq i) = mq i
      rw [if_neg hi]

theorem C10_deletemin_safety_witness :
    (∀ i, heapWF (mq1 i)) ∧
    (mqProbe mq1 [(0, 0)] = some 0 →
      1 ≤ (mq1 0 : Heap).ntasks ∧
      ((multiq_deletemin mq1 [(0, 0)]).1).isSome ∧
      ((multiq_deletemin mq1 [(0, 0)]).2 0).ntasks + 1 =
        (mq1 0 : Heap).ntasks ∧
      ((multiq_deletemin mq1 [(0, 0)]).2 0).tasks
        ((mq1 0 : Heap).ntasks - 1) = none ∧
      ∀ i, i ≠ 0 → (multiq_deletemin mq1 [(0, 0)]).2 i =
        mq1 i) :=
  ⟨fun _ => oneHeap_wf,
   (C10_deletemin_safety mq1 [(0, 0)] (fun _ => oneHeap_wf)).2 0⟩

/-! ### Sync-tree pools and `jl_task_new_multi`

The pools of arrival/reduction trees are arrays with an intrusive free
list.  `head` models the atomic head index (`next_arriver`/`next_reducer`,
`-1` = exhausted) and `nextAvail i` the `next_avail` field of element
`i`. -/

structure Pool where
  head : Int
  nextAvail : Nat → Int
deriving Inhabited

/-- Pointwise update of a `next_avail` table. -/
def updI (f : Nat → Int) (i : Nat) (v : Int) : Nat → Int :=
  fun j => if j = i then v else f j

/-- `arriver_alloc()` / `reducer_alloc()`: read the head; `-1` means the
pool is exhausted; otherwise hand out that element and advance the head to
its `next_avail` (the CAS succeeds in the sequential model). -/
def pool_alloc (p : Pool) : Option (Nat × Pool) :=
  if p.head = -1 then none
  else some (p.head.toNat,
    { head := p.nextAvail p.head.toNat, nextAvail := p.nextAvail })

/-- `arriver_free()` / `reducer_free()`: zero the tree counters/slots (not
part of the pool state) and atomically exchange — the previous head is
stashed into the element's `next_avail` and the element's index becomes
the new head. -/
def pool_free (p : Pool) (i : Nat) : Pool :=
  { head := (i : Int), nextAvail := updI p.nextAvail i p.head }

/-- An alloc followed by a free of the same element restores the pool
exactly (given a well-formed head index). -/
theorem pool_free_alloc {p : Pool} (hp : 0 ≤ p.head) {i : Nat} {p1 : Pool}
    (h : pool_alloc p = some (i, p1)) : pool_free p1 i = p := by
  obtain ⟨hd, na⟩ := p
  rw [pool_alloc] at h
  by_cases hh : hd = -1
  · rw [if_pos (by simpa using hh)] at h
    exact absurd h (by simp)
  · rw [if_neg (by simpa using hh)] at h
    simp only [Option.some.injEq, Prod.mk.injEq] at h
    obtain ⟨hi, hp1⟩ := h
    rw [pool_free, ← hp1, ← hi]
    simp only [Pool.mk.injEq]
    constructor
    · simpa using Int.toNat_of_nonneg (by simpa using hp)
    · funext j
      rw [updI]
      by_cases hj : j = hd.toNat
      · rw [if_pos hj, hj]
      · rw [if_neg hj]

/-- The fields of `jl_task_t` that `jl_task_new_multi` sets or copies and
that the claims inspect: the loop range `[start, end)`, the grain number,
the identity of the stack buffer that `jl_task_new` allocates (a fresh
allocation-counter id, standing for the `stkbuf`/`ctx` pair prepared by
`init_task_entry`), and the pool indices of the shared arriver and
optional reducer. -/
structure MTask where
  start : Nat
  endd : Nat
  grainNum : Nat
  stkbuf : Nat
  arr : Option Nat
  red : Option Nat
deriving DecidableEq

/-- `jl_task_new()` as invoked by `jl_task_new_multi` for grain 0: fails
(returns null) when `setup_task_fun` fails on the callable; otherwise
returns a task with a freshly allocated guarded stack, modelled by
consuming the allocation counter. -/
def jl_task_new (setupOk : Bool) (alloc : Nat) : Option MTask × Nat :=
  if setupOk then
    (some { start := 0, endd := 0, grainNum := 0, stkbuf := alloc,
            arr := none, red := none }, alloc + 1)
  else (none, alloc)

/-- The task loop of `jl_task_new_multi`: grain `i` receives
`[start, start + q + (i < r ? 1 : 0))` where `q, r` come from
`lldiv(count, G)`; grain 0 is the freshly created task and every later
grain is a `memcpy` copy of it — sharing its `stkbuf` (and saved context)
— with only `start`, `end`, `parent`, `grain_num`, `arr` (and the
reduction fields) overwritten. -/
def grainSize (q r i : Nat) : Nat := q + (if i < r then 1 else 0)

def mkGrains (t0 : MTask) (q r ai : Nat) (ri : Option Nat) :
    Nat → Nat → Nat → List MTask
  | 0, _, _ => []
  | rem + 1, i, s =>
    { t0 with
      start := s
      endd := s + grainSize q r i
      grainNum := i
      arr := some ai
      red := ri } ::
      mkGrains t0 q r ai ri rem (i + 1) (s + grainSize q r i)

/-- `jl_task_new_multi()`: allocate an arriver, then (when `_rargs` is
given) a reducer and the reduction callable (`redOk` models the
`setup_task_fun(_rargs, …)` outcome), then create the `G` grain tasks
(`mainOk` models `jl_task_new`'s setup outcome).  Returns the grain list
(head = grain 0 = parent) together with the final arriver pool, reducer
pool and allocation counter.  Mirrors the failure paths of the source:
the pool-exhaustion and setup-failure paths free what was acquired, while
the `t == NULL` path returns without freeing. -/
def jl_task_new_multi (G count : Nat) (rargs : Bool) (arrP redP : Pool)
    (mainOk redOk : Bool) (alloc : Nat) :
    Option (List MTask) × Pool × Pool × Nat :=
  match pool_alloc arrP with
  | none => (none, arrP, redP, alloc)
  | some (ai, arrP1) =>
    if rargs then
      match pool_alloc redP with
      | none => (none, pool_free arrP1 ai, redP, alloc)
      | some (ri, redP1) =>
        if redOk then
          match jl_task_new mainOk alloc with
          | (none, alloc2) => (none, arrP1, redP1, alloc2)
          | (some t0, alloc2) =>
            (some (mkGrains t0 (count / G) (count % G) ai (some ri) G 0 0),
             arrP1, redP1, alloc2)
        else (none, pool_free arrP1 ai, pool_free redP1 ri, alloc)
    else
      match jl_task_new mainOk alloc with
      | (none, alloc2) => (none, arrP1, redP, alloc2)
      | (some t0, alloc2) =>
        (some (mkGrains t0 (count / G) (count % G) ai none G 0 0),
         arrP1, redP, alloc2)

/-- The squaring loop of `synctreepool_init` computing `num_arrivers`
before the final increment: `v = G; for (i = 1; i < P; ++i) v = v * v;`
— the loop body runs `P - 1` times. -/
def arriversLoop (v : Nat) : Nat → Nat
  | 0 => v
  | k + 1 => arriversLoop (v * v) k

/-- `num_arrivers` as computed by `synctreepool_init`
(`G = GRAIN_K * jl_n_threads`, `P = ARRIVERS_P`). -/
def num_arrivers (G P : Nat) : Nat := arriversLoop G (P - 1) + 1

/-- `num_reducers = num_arrivers * REDUCERS_FRAC` as computed by
`synctreepool_init`. -/
def num_reducers (G P F : Nat) : Nat := num_arrivers G P * F

/-! ### Properties of the grain list -/

theorem mkGrains_length (t0 : MTask) (q r ai : Nat) (ri : Option Nat) :
    ∀ rem i s, (mkGrains t0 q r ai ri rem i s).length = rem := by
  intro rem
  induction rem with
  | zero => intro i s; rfl
  | succ k ih =>
    intro i s
    rw [mkGrains]
    simp [ih]

theorem mkGrains_get (t0 : MTask) (q r ai : Nat) (ri : Option Nat) :
    ∀ rem i s j, j < rem →
      ∃ st, (mkGrains t0 q r ai ri rem i s)[j]? = some st ∧
        st.endd = st.start + grainSize q r (i + j) ∧
        st.grainNum = i + j ∧ st.stkbuf = t0.stkbuf ∧
        st.arr = some ai ∧ st.red = ri := by
  intro rem
  induction rem with
  | zero => intro i s j hj; omega
  | succ k ih =>
    intro i s j hj
    rw [mkGrains]
    cases j with
    | zero =>
      refine ⟨_, List.getElem?_cons_zero, by simp, by simp, rfl, rfl, rfl⟩
    | succ j2 =>
      obtain ⟨st, h1, h2, h3, h4, h5, h6⟩ :=
        ih (i + 1) (s + grainSize q r i) j2 (by omega)
      have he : i + 1 + j2 = i + (j2 + 1) := by omega
      rw [he] at h2 h3
      exact ⟨st, by rw [List.getElem?_cons_succ]; exact h1, h2, h3, h4, h5, h6⟩

theorem mkGrains_head (t0 : MTask) (q r ai : Nat) (ri : Option Nat)
    (k i s : Nat) :
    ∃ st, (mkGrains t0 q r ai ri (k + 1) i s)[0]? = some st ∧ st.start = s := by
  rw [mkGrains]
  exact ⟨_, List.getElem?_cons_zero, rfl⟩

theorem mkGrains_chain (t0 : MTask) (q r ai : Nat) (ri : Option Nat) :
    ∀ rem i s j, j + 1 < rem → ∀ st st',
      (mkGrains t0 q r ai ri rem i s)[j]? = some st →
      (mkGrains t0 q r ai ri rem i s)[j + 1]? = some st' →
      st'.start = st.endd := by
  intro rem
  induction rem with
  | zero => intro i s j hj; omega
  | succ k ih =>
    intro i s j hj st st' h1 h2
    rw [mkGrains] at h1 h2
    cases j with
    | zero =>
      rw [List.getElem?_cons_zero] at h1
      rw [List.getElem?_cons_succ] at h2
      obtain ⟨k2, hk2⟩ : ∃ k2, k = k2 + 1 := ⟨k - 1, by omega⟩
      subst hk2
      obtain ⟨st2, hst2, hst2s⟩ :=
        mkGrains_head t0 q r ai ri k2 (i + 1) (s + grainSize q r i)
      rw [hst2] at h2
      have hst : st' = st2 := by
        injection h2 with h2
        exact h2.symm
      injection h1 with h1
      rw [hst, hst2s, ← h1]
    | succ j2 =>
      rw [List.getElem?_cons_succ] at h1 h2
      exact ih (i + 1) (s + grainSize q r i) j2 (by omega) st st' h1 h2

theorem mkGrains_sum (t0 : MTask) (q r ai : Nat) (ri : Option Nat) :
    ∀ rem i s,
      ((mkGrains t0 q r ai ri rem i s).map (fun t => t.endd - t.start)).sum =
        rem * q + (min (i + rem) r - min i r) := by
  intro rem
  induction rem with
  | zero =>
    intro i s
    rw [mkGrains]
    simp
  | succ k ih =>
    intro i s
    rw [mkGrains]
    simp only [List.map_cons, List.sum_cons, ih]
    have hq : (k + 1) * q = k * q + q := by ring
    simp only [grainSize, Nat.min_def]
    split_ifs <;> omega

theorem pool_alloc_some {p : Pool} (hp : 0 ≤ p.head) :
    pool_alloc p = some (p.head.toNat,
      { head := p.nextAvail p.head.toNat, nextAvail := p.nextAvail }) := by
  rw [pool_alloc, if_neg (by omega)]

theorem pool_alloc_none {p : Pool} (hp : p.head = -1) : pool_alloc p = none := by
  rw [pool_alloc, if_pos hp]

/-- A successful `jl_task_new_multi` returns exactly the grain list built
by the allocation loop, with `q, r` from `lldiv(count, G)`. -/
theorem jl_task_new_multi_some {G count : Nat} {rargs : Bool}
    {arrP redP : Pool} {mainOk redOk : Bool} {alloc : Nat} {ts : List MTask}
    (hres : (jl_task_new_multi G count rargs arrP redP mainOk redOk alloc).1 =
      some ts) :
    ∃ t0 ai ri, ts = mkGrains t0 (count / G) (count % G) ai ri G 0 0 := by
  rw [jl_task_new_multi] at hres
  rcases hpa : pool_alloc arrP with _ | ⟨ai, arrP1⟩ <;>
    simp only [hpa] at hres
  · simp at hres
  · by_cases hr : rargs
    · simp only [hr, if_true] at hres
      rcases hpr : pool_alloc redP with _ | ⟨ri, redP1⟩ <;>
        simp only [hpr] at hres
      · simp at hres
      · by_cases hro : redOk
        · simp only [hro, if_true] at hres
          by_cases hm : mainOk
          · simp only [jl_task_new, hm, if_true] at hres
            simp only [Option.some.injEq] at hres
            exact ⟨_, ai, some ri, hres.symm⟩
          · simp only [jl_task_new, hm, if_false] at hres
            simp at hres
        · simp only [hro, if_false] at hres
          simp at hres
    · simp only [hr, Bool.false_eq_true, if_false] at hres
      by_cases hm : mainOk
      · simp only [jl_task_new, hm, if_true, Option.some.injEq] at hres
        exact ⟨_, ai, none, hres.symm⟩
      · simp only [jl_task_new, hm, if_false] at hres
        simp at hres

/-! ### Claim theorems: task fan-out creation and pools -/

/-- Arriver pool with two elements (`0 → 1 → ∅`). -/
def poolTwo : Pool := { head := 0, nextAvail := fun i => if i = 0 then 1 else -1 }

/-- Reducer pool with one element (`0 → ∅`). -/
def poolOne : Pool := { head := 0, nextAvail := fun _ => -1 }

/-- C3, counterexample: with both pools non-empty, a reduction argument
present and its setup succeeding, a failing `jl_task_new` (grain-0 task
allocation failure) makes `jl_task_new_multi` return `none` while the
arriver pool's free list has advanced to element `1` only (element `0` is
not reachable: it leaked) and the reducer pool is left empty (its element
`0` leaked as well) — the acquired resources were not returned. -/
theorem C3_counterexample :
    (jl_task_new_multi 2 10 true poolTwo poolOne false true 0).1 = none ∧
    (jl_task_new_multi 2 10 true poolTwo poolOne false true 0).2.1.head = 1 ∧
    (jl_task_new_multi 2 10 true poolTwo poolOne false true 0).2.1.nextAvail 1
      = -1 ∧
    (jl_task_new_multi 2 10 true poolTwo poolOne false true 0).2.2.1.head
      = -1 := by
  refine ⟨?_, ?_, ?_, ?_⟩ <;> decide

/-- C3 (amended): `jl_task_new_multi` frees everything it acquired on the
arriver-exhausted, reducer-exhausted and reduction-setup-failure paths —
restoring both pools exactly — but on task-allocation failure
(`jl_task_new` returning null) it returns `none` WITHOUT returning the
already-acquired arriver (nor the reducer, when a reduction argument was
given) to its pool: those resources leak. -/
theorem C3_cleanup_amended (G count : Nat) (arrP redP : Pool)
    (mainOk redOk : Bool) (alloc : Nat) :
    (∀ rargs, arrP.head = -1 →
      jl_task_new_multi G count rargs arrP redP mainOk redOk alloc =
        (none, arrP, redP, alloc)) ∧
    (0 ≤ arrP.head → redP.head = -1 →
      jl_task_new_multi G count true arrP redP mainOk redOk alloc =
        (none, arrP, redP, alloc)) ∧
    (0 ≤ arrP.head → 0 ≤ redP.head → redOk = false →
      jl_task_new_multi G count true arrP redP mainOk redOk alloc =
        (none, arrP, redP, alloc)) ∧
    (0 ≤ arrP.head → mainOk = false →
      (jl_task_new_multi G count false arrP redP mainOk redOk alloc).1 =
        none ∧
      (jl_task_new_multi G count false arrP redP mainOk redOk alloc).2.1.head =
        arrP.nextAvail arrP.head.toNat ∧
      (jl_task_new_multi G count false arrP redP mainOk redOk
        alloc).2.1.nextAvail = arrP.nextAvail) ∧
    (0 ≤ arrP.head → 0 ≤ redP.head → redOk = true → mainOk = false →
      (jl_task_new_multi G count true arrP redP mainOk redOk alloc).1 =
        none ∧
      (jl_task_new_multi G count true arrP redP mainOk redOk alloc).2.1.head =
        arrP.nextAvail arrP.head.toNat ∧
      (jl_task_new_multi G count true arrP redP mainOk redOk alloc).2.2.1.head =
        redP.nextAvail redP.head.toNat) := by
  refine ⟨?_, ?_, ?_, ?_, ?_⟩
  · intro rargs ha
    rw [jl_task_new_multi]
    simp only [pool_alloc_none ha]
  · intro ha hr
    rw [jl_task_new_multi]
    simp only [pool_alloc_some ha, pool_alloc_none hr, if_true]
    rw [pool_free_alloc ha (pool_alloc_some ha)]
  · intro ha hr hro
    rw [jl_task_new_multi]
    simp only [pool_alloc_some ha, pool_alloc_some hr, hro,
      Bool.false_eq_true, if_true, if_false]
    rw [pool_free_alloc ha (pool_alloc_some ha),
      pool_free_alloc hr (pool_alloc_some hr)]
  · intro ha hm
    rw [jl_task_new_multi]
    simp only [pool_alloc_some ha, if_false, jl_task_new, hm]
    exact ⟨rfl, rfl, rfl⟩
  · intro ha hr hro hm
    rw [jl_task_new_multi]
    simp only [pool_alloc_some ha, pool_alloc_some hr, hro, hm,
      if_true, jl_task_new, if_false]
    exact ⟨rfl, rfl, rfl⟩

theorem C3_cleanup_amended_witness :
    ((0 : Int) ≤ poolTwo.head ∧ (0 : Int) ≤ poolOne.head) ∧
    ((jl_task_new_multi 2 10 true poolTwo poolOne false true 0).1 = none ∧
     (jl_task_new_multi 2 10 true poolTwo poolOne false true 0).2.1.head =
        poolTwo.nextAvail poolTwo.head.toNat ∧
     (jl_task_new_multi 2 10 true poolTwo poolOne false true 0).2.2.1.head =
        poolOne.nextAvail poolOne.head.toNat) :=
  ⟨⟨by decide, by decide⟩,
   (C3_cleanup_amended 2 10 poolTwo poolOne false true 0).2.2.2.2
     (by decide) (by decide) rfl rfl⟩

/-- C7: for every `count` and `G ≥ 1`, a successful `jl_task_new_multi`
splits `[0, count)` into `G` contiguous half-open ranges: grain `j` gets
`end_j = start_j + count/G + (j < count%G ? 1 : 0)`, `start_0 = 0`,
`start_{j+1} = end_j`, the sizes sum to `count`, and when `count < G` the
grains with `j ≥ count` receive empty ranges. -/
theorem C7_range_split (G count : Nat) (rargs : Bool) (arrP redP : Pool)
    (mainOk redOk : Bool) (alloc : Nat) (ts : List MTask) (hG : 1 ≤ G)
    (hres : (jl_task_new_multi G count rargs arrP redP mainOk redOk alloc).1 =
      some ts) :
    ts.length = G ∧
    (∀ j, j < G → ∃ st, ts[j]? = some st ∧ st.grainNum = j ∧
      st.endd = st.start + (count / G + if j < count % G then 1 else 0)) ∧
    (∃ st0, ts[0]? = some st0 ∧ st0.start = 0) ∧
    (∀ j, j + 1 < G → ∀ st st', ts[j]? = some st → ts[j + 1]? = some st' →
      st'.start = st.endd) ∧
    (ts.map (fun t => t.endd - t.start)).sum = count ∧
    (count < G → ∀ j st, count ≤ j → ts[j]? = some st → st.endd = st.start) := by
  obtain ⟨t0, ai, ri, hts⟩ := jl_task_new_multi_some hres
  subst hts
  have hr : count % G < G := Nat.mod_lt _ (by omega)
  refine ⟨mkGrains_length _ _ _ _ _ _ _ _, ?_, ?_, ?_, ?_, ?_⟩
  · intro j hj
    obtain ⟨st, h1, h2, h3, _, _, _⟩ :=
      mkGrains_get t0 (count / G) (count % G) ai ri G 0 0 j hj
    rw [grainSize] at h2
    simp only [Nat.zero_add] at h2 h3
    exact ⟨st, h1, h3, h2⟩
  · obtain ⟨k2, hk2⟩ : ∃ k2, G = k2 + 1 := ⟨G - 1, by omega⟩
    rw [hk2]
    exact mkGrains_head _ _ _ _ _ _ _ _
  · intro j hj st st' h1 h2
    exact mkGrains_chain t0 (count / G) (count % G) ai ri G 0 0 j hj st st' h1 h2
  · rw [mkGrains_sum, Nat.zero_add, min_eq_right (le_of_lt hr),
      Nat.zero_min, Nat.sub_zero]
    exact Nat.div_add_mod count G
  · intro hcG j st hcj h1
    have hq0 : count / G = 0 := Nat.div_eq_of_lt hcG
    have hr0 : count % G = count := Nat.mod_eq_of_lt hcG
    have hjG : j < G := by
      by_contra hc
      have hlen : (mkGrains t0 (count / G) (count % G) ai ri G 0 0).length ≤ j := by
        rw [mkGrains_length]
        omega
      rw [List.getElem?_eq_none hlen] at h1
      exact Option.noConfusion h1
    obtain ⟨st2, h2, h3, _, _, _, _⟩ :=
      mkGrains_get t0 (count / G) (count % G) ai ri G 0 0 j hjG
    rw [h2] at h1
    injection h1 with h1
    subst h1
    rw [h3, grainSize, hq0, hr0]
    simp only [Nat.zero_add]
    rw [if_neg (by omega)]
    exact Nat.add_zero _

/-- The grain list produced by `jl_task_new_multi 3 7 false poolTwo
poolOne true true 0`: three grains splitting `[0, 7)` as `3 + 2 + 2`. -/
def grains7 : List MTask :=
  mkGrains { start := 0, endd := 0, grainNum := 0, stkbuf := 0,
             arr := none, red := none } 2 1 0 none 3 0 0

theorem C7_range_split_witness :
    ((1 : Nat) ≤ 3 ∧
      (jl_task_new_multi 3 7 false poolTwo poolOne true true 0).1 =
        some grains7) ∧
    grains7.length = 3 ∧
    (grains7.map (fun t => t.endd - t.start)).sum = 7 :=
  ⟨⟨by decide, by rfl⟩,
   (C7_range_split 3 7 false poolTwo poolOne true true 0 grains7 (by decide)
      (by rfl)).1,
   (C7_range_split 3 7 false poolTwo poolOne true true 0 grains7 (by decide)
      (by rfl)).2.2.2.2.1⟩

/-- The squaring loop computes `v^(2^k)`. -/
theorem arriversLoop_eq (k : Nat) : ∀ v, arriversLoop v k = v ^ 2 ^ k := by
  induction k with
  | zero => intro v; simp [arriversLoop]
  | succ k ih =>
    intro v
    rw [arriversLoop, ih (v * v)]
    rw [← pow_two v, ← pow_mul, pow_succ, Nat.mul_comm (2 ^ k) 2]

/-- C8: `synctreepool_init` squares `num_arrivers` on every loop
iteration, so the arriver pool holds `G^(2^(ARRIVERS_P−1)) + 1` elements
— not `G^ARRIVERS_P + 1` as the claim (and the comment above the loop in
the source) state.  Failing input: `G = GRAIN_K·W = 2`, `ARRIVERS_P = 3`:
the code allocates `17` arrivers while the claim demands `2^3 + 1 = 9`.
The reducer-pool clause `num_reducers = num_arrivers · REDUCERS_FRAC`
does hold. -/
theorem C8_pool_capacity_bug :
    num_arrivers 2 3 = 17 ∧ ¬ num_arrivers 2 3 = 2 ^ 3 + 1 ∧
    (∀ G P F, num_reducers G P F = num_arrivers G P * F) ∧
    (∀ G P, num_arrivers G P = G ^ 2 ^ (P - 1) + 1) := by
  refine ⟨by decide, by decide, fun G P F => rfl, fun G P => ?_⟩
  rw [num_arrivers, arriversLoop_eq]

/-- C9: in the source every grain beyond grain 0 is created by
`memcpy(t, task, sizeof(jl_task_t))`, which copies grain 0's `stkbuf`
pointer and saved context verbatim and never allocates a fresh stack for
the clone — so the `G` grain tasks do NOT have pairwise distinct stack
buffers and saved contexts; they all alias grain 0's.  Concretely, with
`G = 2` both grain tasks carry the same stack-buffer id. -/
theorem C9_shared_stack_bug :
    ∃ ts, (jl_task_new_multi 2 10 false poolTwo poolOne true true 0).1 =
      some ts ∧ ts.length = 2 ∧
      ∀ t1 ∈ ts, ∀ t2 ∈ ts, t1.stkbuf = t2.stkbuf := by
  refine ⟨_, rfl, by decide, by decide⟩

/-! ### The reduction ascent (`reduce`, partr.c lines 325–366) -/

/-- State of one arriver/reducer pair during a reduction: `cnt i` is the
arrival counter of arriver-tree node `i`, `tree i` is the reducer-tree
value slot of node `i`. -/
structure RedState where
  cnt : Nat → Nat
  tree : Nat → Int

/-- Pointwise update of a `Nat`-valued counter array. -/
def updN (f : Nat → Nat) (i v : Nat) : Nat → Nat :=
  fun j => if j = i then v else f j

/-- The while loop of `reduce`: at arriver node `aidx` with reducer
position `ridx`, the code steps `aidx = (aidx - 1) >> 1`, fetch-and-adds
the arrival counter there, and returns null if the fetched value was 0
(first arrival).  Otherwise it executes `val = fptr(mfunc, rargs, nrargs)`
— calling the reduction callable on the FIXED argument vector `rargs`
only: the neighbour index `nidx = ridx & 1 ? ridx + 1 : ridx - 1` it just
computed is never used, and neither the neighbour's reducer slot nor the
incoming `val` is passed to the call — then stores the result one level up
the reducer tree and continues.  `rcall` is the fixed value of
`fptr(mfunc, rargs, nrargs)`. -/
def reduceLoop (rcall : Int) (st : RedState) (val : Int) (aidx ridx : Nat) :
    Option Int × RedState :=
  if 0 < aidx then
    if st.cnt ((aidx - 1) / 2) = 0 then
      (none, { cnt := updN st.cnt ((aidx - 1) / 2) 1, tree := st.tree })
    else
      reduceLoop rcall
        { cnt := updN st.cnt ((aidx - 1) / 2) (st.cnt ((aidx - 1) / 2) + 1),
          tree := updI st.tree ((ridx - 1) / 2) rcall }
        rcall ((aidx - 1) / 2) ((ridx - 1) / 2)
  else (some val, st)
termination_by aidx
decreasing_by
  have h1 : (aidx - 1) / 2 ≤ aidx - 1 := Nat.div_le_self _ _
  omega

/-- `reduce(arr, red, fptr, mfunc, rargs, val, idx)` for a fan-out of `G`
grains: store `val` at leaf `idx + G - 1` of the reducer tree, then run
the ascent loop from `aidx = ridx = idx + G - 1`. -/
def reduce (rcall : Int) (G : Nat) (st : RedState) (val : Int) (idx : Nat) :
    Option Int × RedState :=
  reduceLoop rcall
    { cnt := st.cnt, tree := updI st.tree (idx + G - 1) val }
    val (idx + G - 1) (idx + G - 1)

/-- A sync pair as it leaves the free list: all counters and slots zero. -/
def zeroRed : RedState := { cnt := fun _ => 0, tree := fun _ => 0 }

/-! ### The arrival barrier (`last_arriver`, partr.c lines 308–320) -/

/-- Status of one grain in the barrier ascent: still running with current
tree node `a`; stopped after its fetch-and-add at node `p` returned 0 (the
NOT-LAST verdict of `last_arriver` / the null return of `reduce`); or
finished past the root (the LAST verdict). -/
inductive GState where
  | run : Nat → GState
  | stopped : Nat → GState
  | last : GState
deriving DecidableEq

/-- Shared state of one barrier: the arriver-tree counters and every
grain's status. -/
structure AState (G : Nat) where
  cnt : Nat → Nat
  gs : Fin G → GState

/-- Leaf node of grain `idx`: `idx + (GRAIN_K * jl_n_threads) - 1`. -/
def leafOf (G : Nat) (g : Fin G) : Nat := g.val + G - 1

/-- Pointwise update of the grain-status array. -/
def updG {G : Nat} (f : Fin G → GState) (g : Fin G) (v : GState) :
    Fin G → GState :=
  fun h => if h = g then v else f h

/-- One loop iteration of the ascent by grain `g` (`last_arriver`, lines
312–318; the identical loop is embedded in `reduce`, lines 343–350): if
the grain's node is 0 the loop has exited and the grain is LAST;
otherwise move to the parent `(a - 1) >> 1`, fetch-and-add its counter,
and stop with NOT-LAST if the fetched value was 0.  A stopped or finished
grain does nothing. -/
def astep {G : Nat} (S : AState G) (g : Fin G) : AState G :=
  match S.gs g with
  | GState.run a =>
    if a = 0 then { cnt := S.cnt, gs := updG S.gs g GState.last }
    else if S.cnt ((a - 1) / 2) = 0 then
      { cnt := updN S.cnt ((a - 1) / 2) (S.cnt ((a - 1) / 2) + 1),
        gs := updG S.gs g (GState.stopped ((a - 1) / 2)) }
    else
      { cnt := updN S.cnt ((a - 1) / 2) (S.cnt ((a - 1) / 2) + 1),
        gs := updG S.gs g (GState.run ((a - 1) / 2)) }
  | GState.stopped _ => S
  | GState.last => S

/-- Initial barrier state: all counters zero (the state in which the
arriver leaves the free list) and every grain at its leaf. -/
def initA (G : Nat) : AState G :=
  { cnt := fun _ => 0, gs := fun g => GState.run (leafOf G g) }

/-- Execute a schedule: an arbitrary interleaving of the grains' atomic
fetch-and-add steps. -/
def exec {G : Nat} (S : AState G) (sched : List (Fin G)) : AState G :=
  sched.foldl astep S

/-- Whether grain status `st`, ascending from leaf `lf`, has left the
subtree rooted at `n` — equivalently, performed the fetch-and-add at
`n`'s parent.  The marker node (current node for a runner, the node
whose counter delivered the 0 for a stopped grain) is inside the subtree
exactly as long as the grain has not left it. -/
def exitedB (st : GState) (lf n : Nat) : Bool :=
  descB 2 n lf &&
    (match st with
     | GState.run a => !descB 2 n a
     | GState.stopped p => !descB 2 n p
     | GState.last => true)

/-- Number of grains that have left the subtree rooted at `n`. -/
def Ecnt {G : Nat} (S : AState G) (n : Nat) : Nat :=
  Finset.univ.sum
    (fun g : Fin G => if exitedB (S.gs g) (leafOf G g) n then 1 else 0)

/-- Number of grains currently running at node `n`. -/
def Rcnt {G : Nat} (S : AState G) (n : Nat) : Nat :=
  Finset.univ.sum
    (fun g : Fin G => if S.gs g = GState.run n then 1 else 0)

/-- Number of grains that observed the LAST verdict. -/
def Lcnt {G : Nat} (S : AState G) : Nat :=
  Finset.univ.sum
    (fun g : Fin G => if S.gs g = GState.last then 1 else 0)

def isRun : GState → Bool
  | GState.run _ => true
  | GState.stopped _ => false
  | GState.last => false

/-- The barrier invariant: (1) a runner's node lies on its leaf's root
path; (2) a stopped grain's marker lies strictly above its leaf on that
path; (3) each internal counter equals the number of grains that left its
two child subtrees; (4) at most one grain ever leaves any subtree or is
at its root; (5) a counter that reached 2 has let a grain to its node;
(6) a grain at or above an internal node means its counter reached 2. -/
def AInv (G : Nat) (S : AState G) : Prop :=
  (∀ g : Fin G, ∀ a, S.gs g = GState.run a →
    descB 2 a (leafOf G g) = true) ∧
  (∀ g : Fin G, ∀ p, S.gs g = GState.stopped p →
    descB 2 p (leafOf G g) = true ∧ p ≠ leafOf G g) ∧
  (∀ p, p + 1 < G → S.cnt p = Ecnt S (2 * p + 1) + Ecnt S (2 * p + 2)) ∧
  (∀ n, Ecnt S n + Rcnt S n ≤ 1) ∧
  (∀ p, p + 1 < G → 2 ≤ S.cnt p → 1 ≤ Ecnt S p + Rcnt S p) ∧
  (∀ p, p + 1 < G → 1 ≤ Ecnt S p + Rcnt S p → 2 ≤ S.cnt p)

/-- Exchange lemma for an indicator sum that changes at one point. -/
theorem sum_update_point {G : Nat} (f f2 : Fin G → Nat) (g : Fin G)
    (hne : ∀ h, h ≠ g → f2 h = f h) :
    Finset.univ.sum f2 + f g = Finset.univ.sum f + f2 g := by
  have h1 : Finset.univ.sum f2 = (Finset.univ.erase g).sum f2 + f2 g :=
    (Finset.sum_erase_add _ _ (Finset.mem_univ g)).symm
  have h2 : Finset.univ.sum f = (Finset.univ.erase g).sum f + f g :=
    (Finset.sum_erase_add _ _ (Finset.mem_univ g)).symm
  have he : (Finset.univ.erase g).sum f2 = (Finset.univ.erase g).sum f :=
    Finset.sum_congr rfl (fun h hh => hne h (Finset.ne_of_mem_erase hh))
  rw [h1, h2, he]
  omega

theorem single_le_sum_ind {G : Nat} (f : Fin G → Nat) (g : Fin G) :
    f g ≤ Finset.univ.sum f :=
  Finset.single_le_sum (fun _ _ => Nat.zero_le _) (Finset.mem_univ g)

theorem sum_ite_unique {G : Nat} (P : Fin G → Prop) [DecidablePred P]
    (hu : ∀ g h : Fin G, P g → P h → g = h) :
    Finset.univ.sum (fun g => if P g then 1 else 0) ≤ 1 := by
  rw [Finset.sum_boole, Nat.cast_id]
  refine Finset.card_le_one.mpr ?_
  intro a ha b hb
  rw [Finset.mem_filter] at ha hb
  exact hu a b ha.2 hb.2

/-- The LAST count is the number of grains that left the whole tree. -/
theorem Lcnt_eq_Ecnt_zero {G : Nat} (S : AState G) : Lcnt S = Ecnt S 0 := by
  unfold Lcnt Ecnt
  refine Finset.sum_congr rfl (fun g _ => ?_)
  cases hg : S.gs g with
  | run a => simp [hg, exitedB, descB_zero]
  | stopped p => simp [hg, exitedB, descB_zero]
  | last => simp [hg, exitedB, descB_zero]

/-- Moving a marker to its parent changes subtree membership only at the
old marker itself. -/
theorem descB_parent_eq {n a : Nat} (ha : 0 < a) (hna : n ≠ a) :
    descB 2 n ((a - 1) / 2) = descB 2 n a := by
  cases hd : descB 2 n a with
  | true => exact descB_parent_of_ne hd (fun h => hna h.symm) ha
  | false =>
    cases hp : descB 2 n ((a - 1) / 2) with
    | false => rfl
    | true =>
      have := descB_trans hp (descB_child ha)
      rw [hd] at this
      exact absurd this (by simp)

/-- The initial state satisfies the invariant. -/
theorem AInv_init (G : Nat) : AInv G (initA G) := by
  have hE : ∀ n, Ecnt (initA G) n = 0 := by
    intro n
    refine Finset.sum_eq_zero (fun g _ => ?_)
    simp [initA, exitedB]
  have hR : ∀ n, Rcnt (initA G) n ≤ 1 := by
    intro n
    refine sum_ite_unique _ ?_
    intro g h hg hh
    simp only [initA, GState.run.injEq] at hg hh
    have : leafOf G g = leafOf G h := hg.trans hh.symm
    simp only [leafOf] at this
    have hgG := g.isLt
    have hhG := h.isLt
    exact Fin.ext (by omega)
  refine ⟨?_, ?_, ?_, ?_, ?_, ?_⟩
  · intro g a hg
    simp only [initA, GState.run.injEq] at hg
    rw [← hg]
    exact descB_refl 2 _
  · intro g p hg
    exact absurd hg (by simp [initA])
  · intro p hp
    rw [hE, hE]
    rfl
  · intro n
    have := hR n
    have := hE n
    omega
  · intro p hp h2
    simp only [initA] at h2
    omega
  · intro p hp h1
    have := hE p
    have : Rcnt (initA G) p ≤ 1 := hR p
    have hR0 : Rcnt (initA G) p = 0 ∨ Rcnt (initA G) p = 1 := by omega
    -- a grain can be at an internal node only after ascending; initially
    -- every grain is at its leaf, and leaves are not internal
    have : Rcnt (initA G) p = 0 := by
      refine Finset.sum_eq_zero (fun g _ => ?_)
      rw [if_neg]
      intro hg
      simp only [initA, GState.run.injEq] at hg
      have hgG := g.isLt
      simp only [leafOf] at hg
      omega
    have := hE p
    omega

/-- Exit-count exchange between two states differing at one grain. -/
theorem Ecnt_update {G : Nat} {S S2 : AState G} {g : Fin G}
    (hgs : ∀ h, h ≠ g → S2.gs h = S.gs h) (n : Nat) :
    Ecnt S2 n + (if exitedB (S.gs g) (leafOf G g) n then 1 else 0)
      = Ecnt S n + (if exitedB (S2.gs g) (leafOf G g) n then 1 else 0) :=
  sum_update_point
    (fun h => if exitedB (S.gs h) (leafOf G h) n then 1 else 0)
    (fun h => if exitedB (S2.gs h) (leafOf G h) n then 1 else 0)
    g (fun h hh => by simp only [hgs h hh])

/-- Runner-count exchange between two states differing at one grain. -/
theorem Rcnt_update {G : Nat} {S S2 : AState G} {g : Fin G}
    (hgs : ∀ h, h ≠ g → S2.gs h = S.gs h) (n : Nat) :
    Rcnt S2 n + (if S.gs g = GState.run n then 1 else 0)
      = Rcnt S n + (if S2.gs g = GState.run n then 1 else 0) :=
  sum_update_point
    (fun h => if S.gs h = GState.run n then 1 else 0)
    (fun h => if S2.gs h = GState.run n then 1 else 0)
    g (fun h hh => by simp only [hgs h hh])

/-- Advancing the marker from `a` to its parent leaves the exit status
with respect to every other subtree unchanged. -/
theorem exitedB_step_ne {st2 : GState} {lf a n : Nat} (ha : 0 < a)
    (hna : n ≠ a)
    (hm : st2 = GState.stopped ((a - 1) / 2) ∨
      st2 = GState.run ((a - 1) / 2)) :
    exitedB st2 lf n = exitedB (GState.run a) lf n := by
  rcases hm with hm | hm <;> subst hm <;>
    simp [exitedB, descB_parent_eq ha hna]

/-- Advancing the marker from `a` to its parent makes the grain exit the
subtree rooted at `a` — and only that one. -/
theorem exitedB_step_self {st2 : GState} {lf a : Nat}
    (hleaf : descB 2 a lf = true) (hpa : (a - 1) / 2 < a)
    (hm : st2 = GState.stopped ((a - 1) / 2) ∨
      st2 = GState.run ((a - 1) / 2)) :
    exitedB (GState.run a) lf a = false ∧ exitedB st2 lf a = true := by
  constructor
  · simp [exitedB, descB_refl]
  · rcases hm with hm | hm <;> subst hm <;>
      simp [exitedB, hleaf, descB_false_of_lt hpa]

/-- One barrier step preserves the invariant. -/
theorem AInv_step {G : Nat} {S : AState G} (hI : AInv G S) (g : Fin G) :
    AInv G (astep S g) := by
  obtain ⟨hRun, hStop, hA, hB, hD, hC⟩ := hI
  cases hg : S.gs g with
  | stopped p =>
    have hstep : astep S g = S := by unfold astep; rw [hg]
    rw [hstep]
    exact ⟨hRun, hStop, hA, hB, hD, hC⟩
  | last =>
    have hstep : astep S g = S := by unfold astep; rw [hg]
    rw [hstep]
    exact ⟨hRun, hStop, hA, hB, hD, hC⟩
  | run a =>
    by_cases ha0 : a = 0
    · -- the loop has exited: the grain is LAST
      subst ha0
      set S2 : AState G := { cnt := S.cnt, gs := updG S.gs g GState.last }
        with hS2
      have hstep : astep S g = S2 := by unfold astep; rw [hg]; rfl
      rw [hstep]
      have hgs : ∀ h : Fin G, h ≠ g → S2.gs h = S.gs h := by
        intro h hh; simp [hS2, updG, hh]
      have hgsg : S2.gs g = GState.last := by simp [hS2, updG]
      have hcnt : ∀ q, S2.cnt q = S.cnt q := fun q => rfl
      have hE0 : Ecnt S2 0 = Ecnt S 0 + 1 := by
        have hkey := Ecnt_update hgs 0
        rw [hg, hgsg] at hkey
        simp [exitedB, descB_zero] at hkey
        omega
      have hEne : ∀ n, n ≠ 0 → Ecnt S2 n = Ecnt S n := by
        intro n hn
        have hkey := Ecnt_update hgs n
        rw [hg, hgsg] at hkey
        simp [exitedB, descB_false_of_lt (show 0 < n by omega)] at hkey
        omega
      have hR0 : Rcnt S2 0 + 1 = Rcnt S 0 := by
        have hkey := Rcnt_update hgs 0
        rw [hg, hgsg] at hkey
        simp at hkey
        omega
      have hRne : ∀ n, n ≠ 0 → Rcnt S2 n = Rcnt S n := by
        intro n hn
        have hkey := Rcnt_update hgs n
        rw [hg, hgsg] at hkey
        simp [Ne.symm hn] at hkey
        omega
      refine ⟨?_, ?_, ?_, ?_, ?_, ?_⟩
      · intro h b hb
        by_cases hh : h = g
        · subst hh; rw [hgsg] at hb; exact absurd hb (by simp)
        · rw [hgs h hh] at hb; exact hRun h b hb
      · intro h p hp
        by_cases hh : h = g
        · subst hh; rw [hgsg] at hp; exact absurd hp (by simp)
        · rw [hgs h hh] at hp; exact hStop h p hp
      · intro p hp
        rw [hcnt p, hEne (2 * p + 1) (by omega), hEne (2 * p + 2) (by omega)]
        exact hA p hp
      · intro n
        by_cases hn : n = 0
        · subst hn
          have := hB 0
          omega
        · rw [hEne n hn, hRne n hn]
          exact hB n
      · intro p hp h2
        rw [hcnt p] at h2
        have h3 := hD p hp h2
        by_cases hp0 : p = 0
        · subst hp0; omega
        · rw [hEne p hp0, hRne p hp0]; exact h3
      · intro p hp h1
        rw [hcnt p]
        refine hC p hp ?_
        by_cases hp0 : p = 0
        · subst hp0; omega
        · rw [hEne p hp0, hRne p hp0] at h1; exact h1
    · -- fetch-and-add at the parent
      have ha1 : 0 < a := Nat.pos_of_ne_zero ha0
      have hleaf : descB 2 a (leafOf G g) = true := hRun g a hg
      have haleaf : a ≤ leafOf G g := descB_le hleaf
      have hgG := g.isLt
      have hlfb : leafOf G g ≤ 2 * G - 2 := by
        simp only [leafOf]; omega
      have hG2 : 2 ≤ G := by omega
      have hpa : (a - 1) / 2 < a := by omega
      have hpane : (a - 1) / 2 ≠ a := Nat.ne_of_lt hpa
      have hpInt : (a - 1) / 2 + 1 < G := by omega
      have hchild : a = 2 * ((a - 1) / 2) + 1 ∨ a = 2 * ((a - 1) / 2) + 2 := by
        omega
      have hpleaf : descB 2 ((a - 1) / 2) (leafOf G g) = true :=
        descB_trans (descB_child ha1) hleaf
      have hpneleaf : (a - 1) / 2 ≠ leafOf G g := by omega
      have hRga : 1 ≤ Rcnt S a := by
        have hterm : (if S.gs g = GState.run a then 1 else 0) = 1 := by
          rw [hg]; simp
        calc 1 = _ := hterm.symm
          _ ≤ Rcnt S a := single_le_sum_ind
              (fun h => if S.gs h = GState.run a then 1 else 0) g
      by_cases hz : S.cnt ((a - 1) / 2) = 0
      · -- first arrival: NOT-LAST, stop
        set S2 : AState G :=
          { cnt := updN S.cnt ((a - 1) / 2) (S.cnt ((a - 1) / 2) + 1),
            gs := updG S.gs g (GState.stopped ((a - 1) / 2)) } with hS2
        have hstep : astep S g = S2 := by
          unfold astep; simp only [hg]; rw [if_neg ha0, if_pos hz]
        rw [hstep]
        have hgs : ∀ h : Fin G, h ≠ g → S2.gs h = S.gs h := by
          intro h hh; simp [hS2, updG, hh]
        have hgsg : S2.gs g = GState.stopped ((a - 1) / 2) := by
          simp [hS2, updG]
        have hm : GState.stopped ((a - 1) / 2) = GState.stopped ((a - 1) / 2)
            ∨ GState.stopped ((a - 1) / 2) = GState.run ((a - 1) / 2) :=
          Or.inl rfl
        have hcp : S2.cnt ((a - 1) / 2) = S.cnt ((a - 1) / 2) + 1 := by
          simp [hS2, updN]
        have hcne : ∀ q, q ≠ (a - 1) / 2 → S2.cnt q = S.cnt q := by
          intro q hq; simp [hS2, updN, hq]
        have hEa : Ecnt S2 a = Ecnt S a + 1 := by
          have hkey := Ecnt_update hgs a
          rw [hg, hgsg] at hkey
          obtain ⟨hx1, hx2⟩ := exitedB_step_self hleaf hpa hm
          rw [hx1, hx2] at hkey
          simp at hkey
          omega
        have hEne : ∀ n, n ≠ a → Ecnt S2 n = Ecnt S n := by
          intro n hn
          have hkey := Ecnt_update hgs n
          rw [hg, hgsg, exitedB_step_ne ha1 hn hm] at hkey
          omega
        have hRa : Rcnt S2 a + 1 = Rcnt S a := by
          have hkey := Rcnt_update hgs a
          rw [hg, hgsg] at hkey
          simp at hkey
          omega
        have hRne : ∀ n, n ≠ a → Rcnt S2 n = Rcnt S n := by
          intro n hn
          have hkey := Rcnt_update hgs n
          rw [hg, hgsg] at hkey
          simp [Ne.symm hn] at hkey
          omega
        refine ⟨?_, ?_, ?_, ?_, ?_, ?_⟩
        · intro h b hb
          by_cases hh : h = g
          · subst hh; rw [hgsg] at hb; exact absurd hb (by simp)
          · rw [hgs h hh] at hb; exact hRun h b hb
        · intro h p hp
          by_cases hh : h = g
          · subst hh
            rw [hgsg] at hp
            injection hp with hp
            rw [← hp]
            exact ⟨hpleaf, hpneleaf⟩
          · rw [hgs h hh] at hp; exact hStop h p hp
        · intro q hq
          by_cases hqp : q = (a - 1) / 2
          · subst hqp
            rcases hchild with hc | hc
            · have e1 : Ecnt S2 (2 * ((a - 1) / 2) + 1)
                  = Ecnt S (2 * ((a - 1) / 2) + 1) + 1 := by
                rw [← hc]; exact hEa
              have e2 : Ecnt S2 (2 * ((a - 1) / 2) + 2)
                  = Ecnt S (2 * ((a - 1) / 2) + 2) := hEne _ (by omega)
              rw [hcp, e1, e2, hA ((a - 1) / 2) hpInt]
              omega
            · have e1 : Ecnt S2 (2 * ((a - 1) / 2) + 2)
                  = Ecnt S (2 * ((a - 1) / 2) + 2) + 1 := by
                rw [← hc]; exact hEa
              have e2 : Ecnt S2 (2 * ((a - 1) / 2) + 1)
                  = Ecnt S (2 * ((a - 1) / 2) + 1) := hEne _ (by omega)
              rw [hcp, e1, e2, hA ((a - 1) / 2) hpInt]
              omega
          · rw [hcne q hqp, hEne (2 * q + 1) (by omega),
              hEne (2 * q + 2) (by omega)]
            exact hA q hq
        · intro n
          by_cases hn : n = a
          · subst hn
            have := hB n
            omega
          · rw [hEne n hn, hRne n hn]
            exact hB n
        · intro q hq h2
          by_cases hqp : q = (a - 1) / 2
          · subst hqp
            rw [hcp] at h2
            have := hD ((a - 1) / 2) hq (by omega)
            rw [hEne _ hpane, hRne _ hpane]
            exact this
          · rw [hcne q hqp] at h2
            have h3 := hD q hq h2
            by_cases hqa : q = a
            · subst hqa; omega
            · rw [hEne q hqa, hRne q hqa]; exact h3
        · intro q hq h1
          by_cases hqp : q = (a - 1) / 2
          · subst hqp
            rw [hEne _ hpane, hRne _ hpane] at h1
            have := hC ((a - 1) / 2) hq h1
            omega
          · rw [hcne q hqp]
            refine hC q hq ?_
            by_cases hqa : q = a
            · subst hqa; omega
            · rw [hEne q hqa, hRne q hqa] at h1; exact h1
      · -- the neighbour already arrived: move up
        set S2 : AState G :=
          { cnt := updN S.cnt ((a - 1) / 2) (S.cnt ((a - 1) / 2) + 1),
            gs := updG S.gs g (GState.run ((a - 1) / 2)) } with hS2
        have hstep : astep S g = S2 := by
          unfold astep; simp only [hg]; rw [if_neg ha0, if_neg hz]
        rw [hstep]
        have hgs : ∀ h : Fin G, h ≠ g → S2.gs h = S.gs h := by
          intro h hh; simp [hS2, updG, hh]
        have hgsg : S2.gs g = GState.run ((a - 1) / 2) := by
          simp [hS2, updG]
        have hm : GState.run ((a - 1) / 2) = GState.stopped ((a - 1) / 2)
            ∨ GState.run ((a - 1) / 2) = GState.run ((a - 1) / 2) :=
          Or.inr rfl
        have hcp : S2.cnt ((a - 1) / 2) = S.cnt ((a - 1) / 2) + 1 := by
          simp [hS2, updN]
        have hcne : ∀ q, q ≠ (a - 1) / 2 → S2.cnt q = S.cnt q := by
          intro q hq; simp [hS2, updN, hq]
        have hEa : Ecnt S2 a = Ecnt S a + 1 := by
          have hkey := Ecnt_update hgs a
          rw [hg, hgsg] at hkey
          obtain ⟨hx1, hx2⟩ := exitedB_step_self hleaf hpa hm
          rw [hx1, hx2] at hkey
          simp at hkey
          omega
        have hEne : ∀ n, n ≠ a → Ecnt S2 n = Ecnt S n := by
          intro n hn
          have hkey := Ecnt_update hgs n
          rw [hg, hgsg, exitedB_step_ne ha1 hn hm] at hkey
          omega
        have hRa : Rcnt S2 a + 1 = Rcnt S a := by
          have hkey := Rcnt_update hgs a
          rw [hg, hgsg] at hkey
          simp [hpane] at hkey
          omega
        have hRp : Rcnt S2 ((a - 1) / 2) = Rcnt S ((a - 1) / 2) + 1 := by
          have hkey := Rcnt_update hgs ((a - 1) / 2)
          rw [hg, hgsg] at hkey
          simp [Ne.symm hpane] at hkey
          omega
        have hRne : ∀ n, n ≠ a → n ≠ (a - 1) / 2 → Rcnt S2 n = Rcnt S n := by
          intro n hn1 hn2
          have hkey := Rcnt_update hgs n
          rw [hg, hgsg] at hkey
          simp [Ne.symm hn1, Ne.symm hn2] at hkey
          omega
        have hERp0 : Ecnt S ((a - 1) / 2) + Rcnt S ((a - 1) / 2) = 0 := by
          by_contra hx
          have h2 := hC ((a - 1) / 2) hpInt (by omega)
          have h3 := hA ((a - 1) / 2) hpInt
          have h4 := hB (2 * ((a - 1) / 2) + 1)
          have h5 := hB (2 * ((a - 1) / 2) + 2)
          have h7 := hB a
          rcases hchild with hc | hc
          · rw [← hc] at h3 h4; omega
          · rw [← hc] at h3 h5; omega
        refine ⟨?_, ?_, ?_, ?_, ?_, ?_⟩
        · intro h b hb
          by_cases hh : h = g
          · subst hh
            rw [hgsg] at hb
            injection hb with hb
            rw [← hb]
            exact hpleaf
          · rw [hgs h hh] at hb; exact hRun h b hb
        · intro h p hp
          by_cases hh : h = g
          · subst hh; rw [hgsg] at hp; exact absurd hp (by simp)
          · rw [hgs h hh] at hp; exact hStop h p hp
        · intro q hq
          by_cases hqp : q = (a - 1) / 2
          · subst hqp
            rcases hchild with hc | hc
            · have e1 : Ecnt S2 (2 * ((a - 1) / 2) + 1)
                  = Ecnt S (2 * ((a - 1) / 2) + 1) + 1 := by
                rw [← hc]; exact hEa
              have e2 : Ecnt S2 (2 * ((a - 1) / 2) + 2)
                  = Ecnt S (2 * ((a - 1) / 2) + 2) := hEne _ (by omega)
              rw [hcp, e1, e2, hA ((a - 1) / 2) hpInt]
              omega
            · have e1 : Ecnt S2 (2 * ((a - 1) / 2) + 2)
                  = Ecnt S (2 * ((a - 1) / 2) + 2) + 1 := by
                rw [← hc]; exact hEa
              have e2 : Ecnt S2 (2 * ((a - 1) / 2) + 1)
                  = Ecnt S (2 * ((a - 1) / 2) + 1) := hEne _ (by omega)
              rw [hcp, e1, e2, hA ((a - 1) / 2) hpInt]
              omega
          · rw [hcne q hqp, hEne (2 * q + 1) (by omega),
              hEne (2 * q + 2) (by omega)]
            exact hA q hq
        · intro n
          by_cases hn : n = a
          · subst hn
            have := hB n
            omega
          · by_cases hnp : n = (a - 1) / 2
            · subst hnp
              rw [hEne _ hpane, hRp]
              omega
            · rw [hEne n hn, hRne n hn hnp]
              exact hB n
        · intro q hq h2
          by_cases hqp : q = (a - 1) / 2
          · subst hqp
            rw [hEne _ hpane, hRp]
            omega
          · rw [hcne q hqp] at h2
            have h3 := hD q hq h2
            by_cases hqa : q = a
            · subst hqa; omega
            · rw [hEne q hqa, hRne q hqa hqp]; exact h3
        · intro q hq h1
          by_cases hqp : q = (a - 1) / 2
          · subst hqp
            rw [hcp]
            omega
          · rw [hcne q hqp]
            refine hC q hq ?_
            by_cases hqa : q = a
            · subst hqa; omega
            · rw [hEne q hqa, hRne q hqa hqp] at h1; exact h1

/-- The invariant holds after executing any schedule. -/
theorem AInv_exec {G : Nat} (sched : List (Fin G)) :
    ∀ S : AState G, AInv G S → AInv G (exec S sched) := by
  induction sched with
  | nil => intro S h; exact h
  | cons g tl ih => intro S h; exact ih (astep S g) (AInv_step h g)

/-- In a finished execution no grain is running anywhere. -/
theorem Rcnt_final {G : Nat} {S : AState G}
    (hfin : ∀ g : Fin G, isRun (S.gs g) = false) (n : Nat) :
    Rcnt S n = 0 := by
  refine Finset.sum_eq_zero (fun g _ => ?_)
  have hx := hfin g
  cases hg : S.gs g with
  | run a => rw [hg] at hx; exact absurd hx (by simp [isRun])
  | stopped p => simp
  | last => simp

/-- In a finished execution every grain has left its own leaf. -/
theorem Ecnt_leaf_final {G : Nat} {S : AState G} (hI : AInv G S)
    (hfin : ∀ g : Fin G, isRun (S.gs g) = false) (g : Fin G) :
    Ecnt S (leafOf G g) = 1 := by
  obtain ⟨hRun, hStop, hA, hB, hD, hC⟩ := hI
  have hterm : (if exitedB (S.gs g) (leafOf G g) (leafOf G g) then 1 else 0)
      = 1 := by
    have hx := hfin g
    cases hg : S.gs g with
    | run a => rw [hg] at hx; exact absurd hx (by simp [isRun])
    | stopped p =>
      obtain ⟨h1, h2⟩ := hStop g p hg
      have h3 : p < leafOf G g := lt_of_le_of_ne (descB_le h1) h2
      simp [exitedB, descB_refl, descB_false_of_lt h3]
    | last =>
      simp [exitedB, descB_refl]
  have hge : 1 ≤ Ecnt S (leafOf G g) := by
    calc 1 = _ := hterm.symm
      _ ≤ Ecnt S (leafOf G g) := single_le_sum_ind
          (fun h => if exitedB (S.gs h) (leafOf G h) (leafOf G g)
            then 1 else 0) g
  have := hB (leafOf G g)
  omega

/-- In a finished execution exactly one grain has left every subtree. -/
theorem Ecnt_final_one {G : Nat} {S : AState G} (hI : AInv G S)
    (hfin : ∀ g : Fin G, isRun (S.gs g) = false) :
    ∀ k n, 2 * G - 1 - n ≤ k → n < 2 * G - 1 → Ecnt S n = 1 := by
  intro k
  induction k with
  | zero => intro n h1 h2; omega
  | succ k ih =>
    intro n h1 h2
    by_cases hleaf : G - 1 ≤ n
    · have hg : n - (G - 1) < G := by omega
      have hlf : leafOf G ⟨n - (G - 1), hg⟩ = n := by
        simp only [leafOf]
        omega
      rw [← hlf]
      exact Ecnt_leaf_final hI hfin _
    · obtain ⟨hRun, hStop, hA, hB, hD, hC⟩ := hI
      have hc1 : Ecnt S (2 * n + 1) = 1 := ih (2 * n + 1) (by omega) (by omega)
      have hc2 : Ecnt S (2 * n + 2) = 1 := ih (2 * n + 2) (by omega) (by omega)
      have h3 := hA n (by omega)
      have h4 := hD n (by omega) (by omega)
      have h5 := hB n
      have h6 := Rcnt_final hfin n
      omega

/-- C6: from an arriver whose counters are all zero, for every `G ≥ 1`
and every interleaving of the grains' atomic fetch-and-add ascent steps
(each grain ascending once from leaf `i + G - 1`, as in `last_arriver`
and in the loop embedded in `reduce`), once no grain is still running,
exactly one of the `G` grains observed the LAST verdict — the other
`G - 1` observed NOT-LAST. -/
theorem C6_exactly_one_last (G : Nat) (hG : 1 ≤ G) (sched : List (Fin G))
    (hfin : ∀ g : Fin G, isRun ((exec (initA G) sched).gs g) = false) :
    Lcnt (exec (initA G) sched) = 1 := by
  have hI := AInv_exec sched (initA G) (AInv_init G)
  rw [Lcnt_eq_Ecnt_zero]
  exact Ecnt_final_one hI hfin (2 * G - 1) 0 (by omega) (by omega)

theorem C6_exactly_one_last_witness :
    ((1 ≤ 2) ∧ (∀ g : Fin 2,
      isRun ((exec (initA 2) [0, 1, 1]).gs g) = false)) ∧
    Lcnt (exec (initA 2) [0, 1, 1]) = 1 :=
  ⟨⟨by decide, by decide⟩,
   C6_exactly_one_last 2 (by decide) [0, 1, 1] (by decide)⟩

/-- C1: the value produced by the reduction ascent ignores the per-grain
values.  Running the `G = 2` grains to completion sequentially from a
fresh (all-zero) sync pair, grain 0 receives the null (NOT-LAST) result
and grain 1 — the last arriver — returns `some rcall`, where `rcall` is
the fixed value of `fptr(mfunc, rargs, nrargs)`: the per-grain values
`v0`, `v1` do not influence the result, because the loop body of `reduce`
invokes the reduction callable on the original `rargs` vector only (the
neighbour index `nidx` it computes is dead, and the neighbour's reducer
slot is never read).  In particular the spec's grain-sum example fails:
with per-grain partial sums `v0 = 124750` and `v1 = 374750`
(`v0 + v1 = 499500`) and `rcall = 0`, the last grain's result is
`some 0 ≠ some 499500`. -/
theorem C1_reduce_ignores_grain_values :
    (∀ rcall v0 v1 : Int,
      (reduce rcall 2 (reduce rcall 2 zeroRed v0 0).2 v1 1).1 = some rcall ∧
      (reduce rcall 2 zeroRed v0 0).1 = none) ∧
    (reduce 0 2 (reduce 0 2 zeroRed 124750 0).2 374750 1).1 ≠
      some 499500 := by
  constructor
  · intro rcall v0 v1
    constructor
    · simp [reduce, reduceLoop, zeroRed, updN, updI]
    · simp [reduce, reduceLoop, zeroRed, updN, updI]
  · simp [reduce, reduceLoop, zeroRed, updN, updI]

end Partr
